import Mathlib

/-! Verification development for the nfa-converter repository: a shallow
embedding of src/nfa_converter/automaton.py (and an interface model of
src/nfa_converter/readwrite.py), together with proofs of the specification
claims about it.

Modelling conventions:
* A Python string is a `String`; a Python set of strings is a `Finset String`.
* A Python dict is an association list in insertion order; a missing key makes
  `alookup` return `none`; `dict.setdefault`-like updates append fresh keys at
  the end, which mirrors CPython dict insertion order.
* A method that can raise returns `Option AutomatonError × Automaton`: the
  first component is the raised error (if any) and the second is the object
  state after the call, so that statements about mutation performed before an
  exception can be made.
* The recursive `_epsilon_closure` is not structurally terminating (it walks
  the ε-graph with no visited set), so it is embedded with an explicit
  recursion-depth fuel parameter; a `none` result at every depth is exactly
  divergence of the Python original.
* Python set iteration order is unspecified; wherever the source iterates over
  a set the embedding iterates over `sortStr`, a canonical sorted order.
  Every claim statement proved below is insensitive to this order. -/

/-- Error kinds raised by the Automaton class (automaton.py lines 13-24). -/
inductive AutomatonError where
  | StateAlreadyExists
  | StateNotFoundError
  deriving DecidableEq

/-- The three automaton types (automaton.py lines 7-10). -/
inductive AutomatonType where
  | DFA
  | NFA
  | eNFA
  deriving DecidableEq

/-- The distinguished epsilon marker used in transition labels. -/
def eps : String := "ε"

/-- Lookup in an association list (Python dict lookup; keys are unique in a
real dict, and the first binding wins here). -/
def alookup {α β : Type} [DecidableEq α] : List (α × β) → α → Option β
  | [], _ => none
  | p :: rest, k => if p.1 = k then some p.2 else alookup rest k

/-- The key list of an association list (Python dict key view). -/
def keysOf {α β : Type} (l : List (α × β)) : List α := l.map Prod.fst

/-- Structural lexicographic comparison of char lists by code point, used to
give set iteration a canonical order that the kernel can evaluate. -/
def charListLe : List Char → List Char → Bool
  | [], _ => true
  | _ :: _, [] => false
  | a :: as, b :: bs =>
    if a.toNat < b.toNat then true
    else if b.toNat < a.toNat then false
    else charListLe as bs

/-- Lexicographic order on strings by code point. -/
def strLe (a b : String) : Prop := charListLe a.data b.data = true

instance : DecidableRel strLe := fun a b => by unfold strLe; infer_instance

theorem char_eq_of_toNat_eq {a b : Char} (h : a.toNat = b.toNat) : a = b := by
  have := Char.ofNat_toNat a
  rw [h, Char.ofNat_toNat] at this
  exact this.symm

theorem charListLe_total : ∀ l1 l2, charListLe l1 l2 = true ∨ charListLe l2 l1 = true := by
  intro l1
  induction l1 with
  | nil => intro l2; exact Or.inl rfl
  | cons a as ih =>
    intro l2
    cases l2 with
    | nil => exact Or.inr rfl
    | cons b bs =>
      rcases Nat.lt_trichotomy a.toNat b.toNat with h | h | h
      · left; simp only [charListLe]; rw [if_pos h]
      · have hne1 : ¬ a.toNat < b.toNat := by omega
        have hne2 : ¬ b.toNat < a.toNat := by omega
        rcases ih bs with hh | hh
        · left; simp only [charListLe]; rw [if_neg hne1, if_neg hne2]; exact hh
        · right; simp only [charListLe]; rw [if_neg hne2, if_neg hne1]; exact hh
      · right; simp only [charListLe]; rw [if_pos h]

theorem charListLe_trans : ∀ l1 l2 l3, charListLe l1 l2 = true → charListLe l2 l3 = true →
    charListLe l1 l3 = true := by
  intro l1
  induction l1 with
  | nil => intro l2 l3 _ _; rfl
  | cons a as ih =>
    intro l2 l3 h12 h23
    cases l2 with
    | nil => simp [charListLe] at h12
    | cons b bs =>
      cases l3 with
      | nil => simp [charListLe] at h23
      | cons c cs =>
        simp only [charListLe] at h12 h23 ⊢
        rcases Nat.lt_trichotomy a.toNat b.toNat with hab | hab | hab
        · rcases Nat.lt_trichotomy b.toNat c.toNat with hbc | hbc | hbc
          · rw [if_pos (show a.toNat < c.toNat by omega)]
          · rw [if_pos (show a.toNat < c.toNat by omega)]
          · rw [if_neg (by omega), if_pos hbc] at h23; simp at h23
        · rw [if_neg (by omega), if_neg (by omega)] at h12
          rcases Nat.lt_trichotomy b.toNat c.toNat with hbc | hbc | hbc
          · rw [if_pos (by omega : a.toNat < c.toNat)]
          · rw [if_neg (by omega), if_neg (by omega)] at h23
            rw [if_neg (by omega : ¬ a.toNat < c.toNat), if_neg (by omega : ¬ c.toNat < a.toNat)]
            exact ih bs cs h12 h23
          · rw [if_neg (by omega), if_pos hbc] at h23; simp at h23
        · rw [if_neg (by omega), if_pos hab] at h12; simp at h12

theorem charListLe_antisymm : ∀ l1 l2, charListLe l1 l2 = true → charListLe l2 l1 = true →
    l1 = l2 := by
  intro l1
  induction l1 with
  | nil =>
    intro l2 _ h21
    cases l2 with
    | nil => rfl
    | cons b bs => simp [charListLe] at h21
  | cons a as ih =>
    intro l2 h12 h21
    cases l2 with
    | nil => simp [charListLe] at h12
    | cons b bs =>
      simp only [charListLe] at h12 h21
      rcases Nat.lt_trichotomy a.toNat b.toNat with hab | hab | hab
      · rw [if_neg (by omega), if_pos hab] at h21; simp at h21
      · rw [if_neg (by omega), if_neg (by omega)] at h12 h21
        have he : a = b := char_eq_of_toNat_eq (by omega)
        rw [he, ih bs h12 h21]
      · rw [if_neg (by omega), if_pos hab] at h12; simp at h12

instance : IsTotal String strLe := ⟨fun a b => charListLe_total a.data b.data⟩

instance : IsTrans String strLe := ⟨fun a b c => charListLe_trans a.data b.data c.data⟩

instance : IsAntisymm String strLe :=
  ⟨fun a b h1 h2 => by
    have h := charListLe_antisymm a.data b.data h1 h2
    cases a; cases b
    exact congrArg String.mk h⟩

/-- Canonical iteration order of a Python string set: its elements sorted by
strLe.  Python set iteration order is unspecified; every claim proved below is
insensitive to the order chosen here. -/
def sortStr (s : Finset String) : List String :=
  Quotient.liftOn s.val (fun l => l.insertionSort strLe)
    (fun l1 l2 h =>
      List.eq_of_perm_of_sorted
        ((List.perm_insertionSort _ l1).trans (h.trans (List.perm_insertionSort _ l2).symm))
        (List.sorted_insertionSort _ l1) (List.sorted_insertionSort _ l2))

theorem mem_sortStr {s : Finset String} {a : String} : a ∈ sortStr s ↔ a ∈ s := by
  cases s with
  | mk val nodup =>
    induction val using Quotient.inductionOn with
    | h l =>
      show a ∈ l.insertionSort strLe ↔ _
      rw [(List.perm_insertionSort strLe l).mem_iff]
      simp [Finset.mem_mk]

theorem nodup_sortStr (s : Finset String) : (sortStr s).Nodup := by
  cases s with
  | mk val nodup =>
    induction val using Quotient.inductionOn with
    | h l =>
      show (l.insertionSort strLe).Nodup
      exact (List.perm_insertionSort strLe l).nodup_iff.mpr (by simpa using nodup)

theorem sortStr_empty : sortStr ∅ = [] := rfl

theorem sortStr_singleton (a : String) : sortStr {a} = [a] := rfl

/-- The Automaton class (automaton.py lines 27-171).  Fields mirror the
instance attributes set in __init__; the two-level transitions dict is an
association list from source state to an association list from symbol to the
set of destination states. -/
structure Automaton where
  name : String
  states : Finset String
  start_states : Finset String
  final_states : Finset String
  transitions : List (String × List (String × Finset String))
  alphabet : Finset String
  deriving DecidableEq

/-- Automaton.__init__ (automaton.py lines 28-38). -/
def Automaton.init (name : String) : Automaton := ⟨name, ∅, ∅, ∅, [], ∅⟩

/-- Automaton.get_transitions_from (automaton.py lines 82-90): returns the
symbol-to-destinations dict of the state, or an empty dict when the state has
no entry in the transitions dict; it never raises. -/
def Automaton.get_transitions_from (A : Automaton) (state : String) : List (String × Finset String) :=
  match alookup A.transitions state with
  | none => []
  | some d => d

/-- Destination set of one (state, symbol) pair: symbol lookup in the result
of get_transitions_from, with the empty set for a missing symbol key. -/
def destSet (A : Automaton) (state symbol : String) : Finset String :=
  match alookup (A.get_transitions_from state) symbol with
  | none => ∅
  | some s => s

/-- Automaton.get_type (automaton.py lines 92-106).  The scan returns eNFA as
soon as a source state has an ε entry; otherwise NFA when some destination set
has at least two elements; otherwise DFA.  The early returns make the result
independent of dict iteration order, so the embedding uses two existential
scans. -/
def Automaton.get_type (A : Automaton) : AutomatonType :=
  if A.transitions.any (fun p => (alookup p.2 eps).isSome) then .eNFA
  else if A.transitions.any (fun p => p.2.any (fun q => decide (2 ≤ q.2.card))) then .NFA
  else .DFA

/-- Automaton.add_state (automaton.py lines 108-115). -/
def Automaton.add_state (A : Automaton) (state : String) : Option AutomatonError × Automaton :=
  if state ∈ A.states then (some .StateAlreadyExists, A)
  else (none, { A with states := insert state A.states })

/-- Insertion of a destination into the inner symbol dict: create the symbol
entry when absent, then add the destination (automaton.py lines 131-133). -/
def dictInsertDest : List (String × Finset String) → String → String → List (String × Finset String)
  | [], symbol, dst => [(symbol, {dst})]
  | p :: rest, symbol, dst =>
    if p.1 = symbol then (p.1, insert dst p.2) :: rest
    else p :: dictInsertDest rest symbol dst

/-- Insertion into the outer transitions dict: create the source entry when
absent (automaton.py lines 129-133). -/
def transInsert : List (String × List (String × Finset String)) → String → String → String → List (String × List (String × Finset String))
  | [], from_state, symbol, dst => [(from_state, [(symbol, {dst})])]
  | p :: rest, from_state, symbol, dst =>
    if p.1 = from_state then (p.1, dictInsertDest p.2 symbol dst) :: rest
    else p :: transInsert rest from_state symbol dst

/-- Automaton.add_transition (automaton.py lines 117-133): both endpoints must
be registered, then the destination is added to the (from_state, symbol)
destination set. -/
def Automaton.add_transition (A : Automaton) (from_state to_state symbol : String) : Option AutomatonError × Automaton :=
  if from_state ∉ A.states then (some .StateNotFoundError, A)
  else if to_state ∉ A.states then (some .StateNotFoundError, A)
  else (none, { A with transitions := transInsert A.transitions from_state symbol to_state })

/-- Automaton.set_start_states (automaton.py lines 135-143): iterate over the
given states, raising at the first unregistered one; each registered state is
added to the start-state set as the loop goes, so the method accumulates, and
on error the states checked before the bad one have already been added.  The
list argument is the iteration order of the Python set argument. -/
def Automaton.set_start_states (A : Automaton) : List String → Option AutomatonError × Automaton
  | [] => (none, A)
  | s :: rest =>
    if s ∈ A.states then
      Automaton.set_start_states { A with start_states := insert s A.start_states } rest
    else (some .StateNotFoundError, A)

/-- The validation loop of set_final_states (automaton.py lines 150-152). -/
def checkStatesRegistered (A : Automaton) : List String → Option AutomatonError
  | [] => none
  | s :: rest => if s ∈ A.states then checkStatesRegistered A rest else some .StateNotFoundError

/-- Automaton.set_final_states (automaton.py lines 145-153): first validates
every given state, then replaces the final-state set wholesale; no mutation
happens when the check fails. -/
def Automaton.set_final_states (A : Automaton) (sts : List String) : Option AutomatonError × Automaton :=
  match checkStatesRegistered A sts with
  | some e => (some e, A)
  | none => (none, { A with final_states := sts.toFinset })

/-- Automaton.set_alphabet (automaton.py lines 155-160): wholesale
replacement, no validation, cannot raise. -/
def Automaton.set_alphabet (A : Automaton) (alphabet : Finset String) : Automaton :=
  { A with alphabet := alphabet }

/-- The helper _nfa_moves (automaton.py lines 231-245): union over the source
set of the destination sets for the given symbol. -/
def nfa_moves (A : Automaton) (from_states : Finset String) (symbol : String) : Finset String :=
  from_states.sup (fun s => destSet A s symbol)

/-- Sequential union of the results of f over a list, failing when any call
fails; this is the accumulation loop shape shared by the two closure
functions. -/
def unionMapM (f : String → Option (Finset String)) : List String → Finset String → Option (Finset String)
  | [], acc => some acc
  | s :: rest, acc =>
    match f s with
    | none => none
    | some c => unionMapM f rest (acc ∪ c)

/-- The helper _epsilon_closure (automaton.py lines 261-275): starts from the
state itself and recurses into every ε-destination, with no visited set.  The
fuel bounds the recursion depth; the Python original terminates exactly when
some finite depth suffices. -/
def epsilon_closure (A : Automaton) : Nat → String → Option (Finset String)
  | 0, _ => none
  | n + 1, state => unionMapM (epsilon_closure A n) (sortStr (destSet A state eps)) {state}

/-- The helper _epsilon_set_closure (automaton.py lines 248-258): union of the
single-state closures over the given set. -/
def epsilon_set_closure (A : Automaton) (n : Nat) (from_states : Finset String) : Option (Finset String) :=
  unionMapM (epsilon_closure A n) (sortStr from_states) ∅

/-- Mark string of a character: the generated DFA state identifiers are
single-character Python strings produced by chr. -/
def markString (c : Char) : String := String.mk [c]

/-- The local loop state of nfa_to_dfa (automaton.py lines 182-191). -/
structure ConvState where
  dfa_transitions : List (Finset String × List (String × Finset String))
  dfa_states : List (Finset String × String)
  queue : List (Finset String)
  state_mark : Char
  new_alphabet : Finset String
  deriving DecidableEq

/-- Inner dict assignment for one symbol key (update in place or append). -/
def dictSetSym : List (String × Finset String) → String → Finset String → List (String × Finset String)
  | [], a, v => [(a, v)]
  | p :: rest, a, v => if p.1 = a then (p.1, v) :: rest else p :: dictSetSym rest a v

/-- Outer dict assignment dfa_transitions[current][symbol] = next
(automaton.py line 202). -/
def setTrans : List (Finset String × List (String × Finset String)) → Finset String → String → Finset String → List (Finset String × List (String × Finset String))
  | [], S, a, v => [(S, [(a, v)])]
  | p :: rest, S, a, v =>
    if p.1 = S then (p.1, dictSetSym p.2 a v) :: rest
    else p :: setTrans rest S a v

/-- Body of the inner for-loop of nfa_to_dfa (automaton.py lines 196-203) for
one symbol: compute the ε-closed move, skip it when empty, otherwise register
it when unseen (incrementing the mark character, appending to dfa_states and
the queue) and record the transition and the symbol. -/
def processSymbol (A : Automaton) (n : Nat) (S : Finset String) (st : ConvState) (a : String) : Option ConvState :=
  match epsilon_set_closure A n (nfa_moves A S a) with
  | none => none
  | some nxt =>
    if nxt = ∅ then some st
    else
      let st1 :=
        if (alookup st.dfa_states nxt).isSome then st
        else
          { st with
            state_mark := Char.ofNat (st.state_mark.toNat + 1),
            dfa_states := st.dfa_states ++ [(nxt, markString (Char.ofNat (st.state_mark.toNat + 1)))],
            queue := st.queue ++ [nxt] }
      some { st1 with
             dfa_transitions := setTrans st1.dfa_transitions S a nxt,
             new_alphabet := insert a st1.new_alphabet }

/-- The inner for-loop of nfa_to_dfa over the source alphabet. -/
def processSymbols (A : Automaton) (n : Nat) (S : Finset String) : List String → ConvState → Option ConvState
  | [], st => some st
  | a :: rest, st =>
    match processSymbol A n S st a with
    | none => none
    | some st' => processSymbols A n S rest st'

/-- The while-loop of nfa_to_dfa (automaton.py lines 192-203): dequeue a
subset, give it an (initially empty) entry in dfa_transitions, process every
alphabet symbol, repeat.  The fuel bounds the number of iterations. -/
def convLoop (A : Automaton) : Nat → ConvState → Option ConvState
  | 0, _ => none
  | n + 1, st =>
    match st.queue with
    | [] => some st
    | S :: qrest =>
      let st0 := { st with queue := qrest, dfa_transitions := st.dfa_transitions ++ [(S, [])] }
      match processSymbols A n S (sortStr A.alphabet) st0 with
      | none => none
      | some st' => convLoop A n st'

/-- The mark assigned to a subset in dfa_states (Python dfa_states[subset];
on the executed paths the key is always present, so the default is inert). -/
def markOfL (L : List (Finset String × String)) (S : Finset String) : String :=
  (alookup L S).getD ""

/-- First for-loop of the construction of the output automaton (automaton.py
lines 205-216): register every generated state and collect the marks of the
subsets that contain a final source state. -/
def addStatesLoop (A : Automaton) : List (Finset String × String) → Automaton → Finset String → Option AutomatonError × Automaton × Finset String
  | [], d, fs => (none, d, fs)
  | (S, m) :: rest, d, fs =>
    match d.add_state m with
    | (some e, d') => (some e, d', fs)
    | (none, d') =>
      addStatesLoop A rest d' (if (S ∩ A.final_states).Nonempty then insert m fs else fs)

/-- The (from mark, to mark, symbol) triples added by the second for-loop of
nfa_to_dfa (automaton.py lines 218-222), flattened in iteration order. -/
def transTriples (L : List (Finset String × String)) (T : List (Finset String × List (String × Finset String))) : List (String × String × String) :=
  (L.map (fun p => ((alookup T p.1).getD []).map (fun q => (p.2, markOfL L q.2, q.1)))).flatten

/-- Folding Automaton.add_transition over the triples, stopping at the first
raised error (a Python exception propagates out of nfa_to_dfa). -/
def addTransitionsLoop : List (String × String × String) → Automaton → Option AutomatonError × Automaton
  | [], d => (none, d)
  | (f, t, a) :: rest, d =>
    match d.add_transition f t a with
    | (some e, d') => (some e, d')
    | (none, d') => addTransitionsLoop rest d'

/-- Construction of the returned automaton (automaton.py lines 205-228) from
the final loop state. -/
def buildDfa (A : Automaton) (st : ConvState) : Option AutomatonError × Automaton :=
  match addStatesLoop A st.dfa_states (Automaton.init "DFA") ∅ with
  | (some e, d, _) => (some e, d)
  | (none, d, fs) =>
    match addTransitionsLoop (transTriples st.dfa_states st.dfa_transitions) d with
    | (some e, d') => (some e, d')
    | (none, d') =>
      match d'.set_start_states ["A"] with
      | (some e, d2) => (some e, d2)
      | (none, d2) =>
        match d2.set_final_states (sortStr fs) with
        | (some e, d3) => (some e, d3)
        | (none, d3) => (none, d3.set_alphabet st.new_alphabet)

/-- nfa_to_dfa (automaton.py lines 174-228), with recursion and iteration
fuel: a none result means the computation does not complete at this depth; on
the inputs where the Python original diverges this holds for every depth. -/
def nfa_to_dfa (fuel : Nat) (nfa : Automaton) : Option (Option AutomatonError × Automaton) :=
  match epsilon_set_closure nfa fuel nfa.start_states with
  | none => none
  | some S0 =>
    match convLoop nfa fuel
        { dfa_transitions := [], dfa_states := [(S0, markString 'A')],
          queue := [S0], state_mark := 'A', new_alphabet := ∅ } with
    | none => none
    | some st => some (buildDfa nfa st)

/-- Modelled from the spec (Glossary, §4.2): one ε-step between states is an
ε-labeled transition edge. -/
def EpsStepRel (A : Automaton) (u v : String) : Prop := v ∈ destSet A u eps

/-- Modelled from the spec (Glossary, §4.2): ε-reachability, zero or more
ε-steps. -/
def EpsReach (A : Automaton) : String → String → Prop := Relation.ReflTransGen (EpsStepRel A)

/-- Modelled from the spec (Glossary): the ε-closure of a set of states, which
always contains the set itself. -/
def closureSet (A : Automaton) (X : Set String) : Set String := {t | ∃ s ∈ X, EpsReach A s t}

/-- Modelled from the spec (§4.3 step 3): one-symbol move of a state set. -/
def movesSet (A : Automaton) (X : Set String) (a : String) : Set String := {t | ∃ s ∈ X, t ∈ destSet A s a}

/-- Modelled from the spec (§8): one acceptance-simulation step reads a symbol
and closes under ε. -/
def stepSet (A : Automaton) (X : Set String) (a : String) : Set String := closureSet A (movesSet A X a)

/-- Modelled from the spec (§8): the set of states reachable after reading the
word, starting from the ε-closure of the start states. -/
def reachSet (A : Automaton) (w : List String) : Set String := w.foldl (stepSet A) (closureSet A ↑A.start_states)

/-- Modelled from the spec (§8, explicit acceptance simulation): the automaton
accepts a word when some state reachable after the whole word is final. -/
def accepts (A : Automaton) (w : List String) : Prop := ∃ q ∈ reachSet A w, q ∈ A.final_states

/-- Modelled from the spec (§4.1): the contract of transitions_from, which
fails with the unknown-state error when the state is unregistered and
otherwise returns the mapping; to be compared with the source's
Automaton.get_transitions_from. -/
def transitions_from_spec (A : Automaton) (state : String) : Except AutomatonError (List (String × Finset String)) :=
  if state ∈ A.states then Except.ok (A.get_transitions_from state)
  else Except.error AutomatonError.StateNotFoundError

/-- The method names defined by the Python class Automaton (automaton.py lines
27-171), beyond the dunder methods. -/
def automatonMethodNames : List String :=
  ["get_name", "get_states", "get_start_states", "get_final_states", "get_alphabet",
   "get_all_transitions", "get_transitions_from", "get_type", "add_state", "add_transition",
   "set_start_states", "set_final_states", "set_alphabet"]

/-- The Automaton method names invoked by readwrite.read (readwrite.py lines
19-71). -/
def readCalledMethods : List String :=
  ["add_state", "set_final_states", "set_start_state", "add_transition", "set_alphabet"]

/-- The Automaton method names invoked by readwrite.write (readwrite.py lines
74-106). -/
def writeCalledMethods : List String :=
  ["get_name", "get_states", "get_final_states", "get_start_state", "get_all_transitions"]

/-- A three-state automaton whose ε-transitions form the cycle
q0 → q1 → q2 → q0, the cycle named by the spec's termination property. -/
def cyc : Automaton :=
  { name := "cyc",
    states := {"q0", "q1", "q2"},
    start_states := {"q0"},
    final_states := ∅,
    transitions := [("q0", [(eps, {"q1"})]), ("q1", [(eps, {"q2"})]), ("q2", [(eps, {"q0"})])],
    alphabet := ∅ }

/-! Basic lemmas about the association-list primitives. -/

theorem alookup_eq_none {α β : Type} [DecidableEq α] (l : List (α × β)) (k : α) :
    alookup l k = none ↔ k ∉ keysOf l := by
  induction l with
  | nil => simp [alookup, keysOf]
  | cons p rest ih =>
    by_cases h : p.1 = k
    · simp [alookup, keysOf, h]
    · simp only [alookup, if_neg h, keysOf, List.map_cons, List.mem_cons]
      rw [ih]
      simp only [keysOf]
      constructor
      · intro hh hc
        rcases hc with hc | hc
        · exact h hc.symm
        · exact hh hc
      · intro hh hc
        exact hh (Or.inr hc)

theorem alookup_append {α β : Type} [DecidableEq α] (l₁ l₂ : List (α × β)) (k : α) :
    alookup (l₁ ++ l₂) k = ((alookup l₁ k).rec (alookup l₂ k) (fun v => some v) : Option β) := by
  induction l₁ with
  | nil => simp [alookup]
  | cons p rest ih =>
    by_cases h : p.1 = k <;> simp [alookup, h, ih]

theorem alookup_isSome_of_mem {α β : Type} [DecidableEq α] {l : List (α × β)} {p : α × β}
    (hp : p ∈ l) : (alookup l p.1).isSome := by
  induction l with
  | nil => cases hp
  | cons q rest ih =>
    rcases List.mem_cons.mp hp with rfl | hp
    · simp [alookup]
    · by_cases h : q.1 = p.1 <;> simp [alookup, h, ih hp]

theorem alookup_mem {α β : Type} [DecidableEq α] {l : List (α × β)} {k : α} {v : β}
    (h : alookup l k = some v) : (k, v) ∈ l := by
  induction l with
  | nil => simp [alookup] at h
  | cons p rest ih =>
    by_cases hk : p.1 = k
    · simp only [alookup, if_pos hk, Option.some.injEq] at h
      subst hk
      subst h
      exact List.mem_cons_self _ _
    · simp only [alookup, if_neg hk] at h
      exact List.mem_cons_of_mem _ (ih h)

theorem alookup_nodup_of_mem {α β : Type} [DecidableEq α] {l : List (α × β)} {p : α × β}
    (hnd : (keysOf l).Nodup) (hp : p ∈ l) : alookup l p.1 = some p.2 := by
  induction l with
  | nil => cases hp
  | cons q rest ih =>
    simp only [keysOf, List.map_cons, List.nodup_cons] at hnd
    rcases List.mem_cons.mp hp with rfl | hp
    · simp [alookup]
    · have hmem : p.1 ∈ List.map Prod.fst rest := List.mem_map_of_mem Prod.fst hp
      have hne : q.1 ≠ p.1 := fun he => hnd.1 (he ▸ hmem)
      simp only [alookup, if_neg hne]
      exact ih hnd.2 hp

/-! Lemmas about the sequential-union combinator underlying both closure
functions. -/

theorem unionMapM_acc_subset {f : String → Option (Finset String)} :
    ∀ {l : List String} {acc R : Finset String}, unionMapM f l acc = some R → acc ⊆ R := by
  intro l
  induction l with
  | nil => intro acc R h; simp [unionMapM] at h; exact h ▸ le_refl _
  | cons s rest ih =>
    intro acc R h
    simp only [unionMapM] at h
    cases hf : f s with
    | none => rw [hf] at h; cases h
    | some c =>
      rw [hf] at h
      exact fun x hx => ih h (Finset.mem_union_left _ hx)

theorem unionMapM_calls {f : String → Option (Finset String)} :
    ∀ {l : List String} {acc R : Finset String}, unionMapM f l acc = some R →
      ∀ d ∈ l, ∃ C, f d = some C ∧ C ⊆ R := by
  intro l
  induction l with
  | nil => intro acc R _ d hd; cases hd
  | cons s rest ih =>
    intro acc R h d hd
    simp only [unionMapM] at h
    cases hf : f s with
    | none => rw [hf] at h; cases h
    | some c =>
      rw [hf] at h
      rcases List.mem_cons.mp hd with rfl | hd
      · exact ⟨c, hf, fun x hx => unionMapM_acc_subset h (Finset.mem_union_right _ hx)⟩
      · exact ih h d hd

theorem unionMapM_cover {f : String → Option (Finset String)} :
    ∀ {l : List String} {acc R : Finset String}, unionMapM f l acc = some R →
      ∀ t ∈ R, t ∈ acc ∨ ∃ d ∈ l, ∃ C, f d = some C ∧ t ∈ C := by
  intro l
  induction l with
  | nil =>
    intro acc R h t ht
    simp [unionMapM] at h
    exact Or.inl (h ▸ ht)
  | cons s rest ih =>
    intro acc R h t ht
    simp only [unionMapM] at h
    cases hf : f s with
    | none => rw [hf] at h; cases h
    | some c =>
      rw [hf] at h
      rcases ih h t ht with hacc | ⟨d, hd, C, hC, htC⟩
      · rcases Finset.mem_union.mp hacc with h1 | h2
        · exact Or.inl h1
        · exact Or.inr ⟨s, List.mem_cons_self _ _, c, hf, h2⟩
      · exact Or.inr ⟨d, List.mem_cons_of_mem _ hd, C, hC, htC⟩

/-! Soundness of the fuel-bounded ε-closure against the spec-level
ε-reachability: whenever the recursion completes, it computes exactly the set
of ε-reachable states. -/

theorem epsilon_closure_sound (A : Automaton) :
    ∀ (n : Nat) (s : String) (R : Finset String), epsilon_closure A n s = some R →
      (↑R : Set String) = {t | EpsReach A s t} := by
  intro n
  induction n with
  | zero => intro s R h; cases h
  | succ n ih =>
    intro s R h
    simp only [epsilon_closure] at h
    ext t
    constructor
    · intro ht
      rcases unionMapM_cover h t ht with hs | ⟨d, hd, C, hC, htC⟩
      · have : t = s := by simpa using hs
        exact this ▸ Relation.ReflTransGen.refl
      · have hd' : d ∈ destSet A s eps := mem_sortStr.mp hd
        have : t ∈ ({u | EpsReach A d u} : Set String) := (ih d C hC) ▸ (by simpa using htC)
        exact Relation.ReflTransGen.head hd' this
    · intro ht
      rcases Relation.ReflTransGen.cases_head ht with rfl | ⟨d, hstep, htail⟩
      · exact unionMapM_acc_subset h (by simp)
      · have hd : d ∈ sortStr (destSet A s eps) := mem_sortStr.mpr hstep
        rcases unionMapM_calls h d hd with ⟨C, hC, hCR⟩
        have : t ∈ (↑C : Set String) := (ih d C hC).symm ▸ (by exact htail)
        exact hCR (by simpa using this)

theorem epsilon_closure_self_mem {A : Automaton} {n : Nat} {s : String} {R : Finset String}
    (h : epsilon_closure A n s = some R) : s ∈ R := by
  have := epsilon_closure_sound A n s R h
  have hs : s ∈ ({t | EpsReach A s t} : Set String) := Relation.ReflTransGen.refl
  rw [← this] at hs
  simpa using hs

theorem epsilon_set_closure_sound (A : Automaton) (n : Nat) (S R : Finset String)
    (h : epsilon_set_closure A n S = some R) :
    (↑R : Set String) = closureSet A ↑S := by
  simp only [epsilon_set_closure] at h
  ext t
  constructor
  · intro ht
    rcases unionMapM_cover h t ht with h0 | ⟨d, hd, C, hC, htC⟩
    · simp at h0
    · refine ⟨d, mem_sortStr.mp hd, ?_⟩
      have := epsilon_closure_sound A n d C hC
      have : t ∈ ({u | EpsReach A d u} : Set String) := this ▸ (by simpa using htC)
      exact this
  · rintro ⟨s, hsS, hreach⟩
    have hs : s ∈ sortStr S := mem_sortStr.mpr (by simpa using hsS)
    rcases unionMapM_calls h s hs with ⟨C, hC, hCR⟩
    have := epsilon_closure_sound A n s C hC
    have ht : t ∈ (↑C : Set String) := this.symm ▸ (by exact hreach)
    exact hCR (by simpa using ht)

/-- Claim C8, amended part: whenever the ε-set-closure computation terminates,
its result contains the input set (closure monotonicity `S ⊆ closure(S)`). -/
theorem epsilon_set_closure_superset (A : Automaton) (n : Nat) (S R : Finset String)
    (h : epsilon_set_closure A n S = some R) : S ⊆ R := by
  intro s hsS
  have hs : s ∈ sortStr S := mem_sortStr.mpr hsS
  rcases unionMapM_calls h s hs with ⟨C, hC, hCR⟩
  exact hCR (epsilon_closure_self_mem hC)

/-- A two-state automaton with the single ε-transition q0 → q1 (acyclic). -/
def chainA : Automaton := ⟨"chain", {"q0", "q1"}, {"q0"}, ∅, [("q0", [(eps, {"q1"})])], ∅⟩

/-- Witness for the amended claim C8 at a concrete acyclic input. -/
theorem epsilon_set_closure_superset_witness :
    epsilon_set_closure chainA 2 {"q0"} = some {"q0", "q1"} ∧
      ({"q0"} : Finset String) ⊆ {"q0", "q1"} :=
  ⟨by decide, epsilon_set_closure_superset chainA 2 {"q0"} {"q0", "q1"} (by decide)⟩

/-! Divergence of the recursive closure on the ε-cycle q0 → q1 → q2 → q0. -/

theorem cyc_closure_none : ∀ n : Nat,
    epsilon_closure cyc n "q0" = none ∧ epsilon_closure cyc n "q1" = none ∧
      epsilon_closure cyc n "q2" = none := by
  intro n
  induction n with
  | zero => exact ⟨rfl, rfl, rfl⟩
  | succ n ih =>
    have h0 : destSet cyc "q0" eps = {"q1"} := by decide
    have h1 : destSet cyc "q1" eps = {"q2"} := by decide
    have h2 : destSet cyc "q2" eps = {"q0"} := by decide
    refine ⟨?_, ?_, ?_⟩
    · simp only [epsilon_closure, h0, sortStr_singleton, unionMapM, ih.2.1]
    · simp only [epsilon_closure, h1, sortStr_singleton, unionMapM, ih.2.2]
    · simp only [epsilon_closure, h2, sortStr_singleton, unionMapM, ih.1]

/-- Claim C2: the spec requires the ε-closure computation and the whole
conversion to terminate on every automaton, including one whose ε-transitions
form a cycle; but the source's _epsilon_closure recurses through the ε-graph
with no visited set, so on the cycle q0 → q1 → q2 → q0 it diverges (the fuel
embedding returns none at every recursion depth), and nfa_to_dfa, whose very
first step closes the start states, diverges with it. -/
theorem closure_and_conversion_diverge_on_eps_cycle :
    (∀ n : Nat, epsilon_closure cyc n "q0" = none) ∧
      (∀ fuel : Nat, nfa_to_dfa fuel cyc = none) := by
  constructor
  · exact fun n => (cyc_closure_none n).1
  · intro fuel
    have hstart : cyc.start_states = {"q0"} := rfl
    have hsort : sortStr {"q0"} = ["q0"] := sortStr_singleton _
    simp only [nfa_to_dfa, epsilon_set_closure, hstart, hsort, unionMapM, (cyc_closure_none fuel).1]

/-- Counterexample to claim C8 as stated: for the registered state set
containing q0 of the ε-cyclic automaton, the closure computation never returns
at any recursion depth, so it does not return a superset of its input — in
Python the call dies with RecursionError. -/
theorem epsilon_set_closure_cyc_no_result :
    "q0" ∈ cyc.states ∧ ¬ ∃ (n : Nat) (R : Finset String), epsilon_set_closure cyc n {"q0"} = some R := by
  constructor
  · decide
  · rintro ⟨n, R, h⟩
    have hsort : sortStr {"q0"} = ["q0"] := sortStr_singleton _
    rw [epsilon_set_closure, hsort] at h
    simp only [unionMapM, (cyc_closure_none n).1] at h
    exact Option.noConfusion h

/-! Claims C5, C6, C9, C10 about the container and the reader/writer
boundary. -/

/-- Claim C5 (code evidence): readwrite.read invokes set_start_state and
readwrite.write invokes get_start_state on Automaton objects, but the
Automaton class defines neither method (it has only the plural
set_start_states / get_start_states), so every read of a text containing a
start-designating edge and every write die with AttributeError. -/
theorem readwrite_calls_missing_methods :
    "set_start_state" ∉ automatonMethodNames ∧ "get_start_state" ∉ automatonMethodNames ∧
      "set_start_state" ∈ readCalledMethods ∧ "get_start_state" ∈ writeCalledMethods := by
  decide

/-- A one-state automaton without transitions, used as concrete input. -/
def regOnly : Automaton := ⟨"A6", {"q0"}, ∅, ∅, [], ∅⟩

/-- Counterexample to claim C6 as stated: querying the transitions of the
unregistered state q9 does not fail — the source returns the empty mapping —
although the spec's contract (transitions_from_spec) demands the
unknown-state error there. -/
theorem get_transitions_from_unregistered_no_error :
    "q9" ∉ regOnly.states ∧ regOnly.get_transitions_from "q9" = [] ∧
      transitions_from_spec regOnly "q9" = Except.error AutomatonError.StateNotFoundError := by
  refine ⟨by decide, by decide, ?_⟩
  unfold transitions_from_spec
  rw [if_neg (by decide)]

/-- Claim C6, amended: get_transitions_from never raises; for a state with no
entry in the transitions dict — in particular for every unregistered state of
an automaton whose transition sources are all registered, and for every
registered state with no outgoing transitions — it returns the empty
mapping. -/
theorem get_transitions_from_amended (A : Automaton) (s : String)
    (hWF : ∀ p ∈ A.transitions, p.1 ∈ A.states) :
    (s ∉ A.states → A.get_transitions_from s = []) ∧
      (s ∉ keysOf A.transitions → A.get_transitions_from s = []) := by
  have key : s ∉ keysOf A.transitions → A.get_transitions_from s = [] := by
    intro hk
    rw [Automaton.get_transitions_from, (alookup_eq_none A.transitions s).mpr hk]
  refine ⟨fun hs => key ?_, key⟩
  intro hk
  rcases List.mem_map.mp hk with ⟨p, hp, hfst⟩
  exact hs (hfst ▸ hWF p hp)

/-- Witness for the amended claim C6 at a concrete input. -/
theorem get_transitions_from_amended_witness :
    (∀ p ∈ regOnly.transitions, p.1 ∈ regOnly.states) ∧
      (("q9" ∉ regOnly.states → regOnly.get_transitions_from "q9" = []) ∧
        ("q9" ∉ keysOf regOnly.transitions → regOnly.get_transitions_from "q9" = [])) :=
  ⟨by decide, get_transitions_from_amended regOnly "q9" (by decide)⟩

theorem set_start_states_registered (A : Automaton) (l : List String)
    (h : ∀ s ∈ l, s ∈ A.states) :
    A.set_start_states l = (none, { A with start_states := A.start_states ∪ l.toFinset }) := by
  induction l generalizing A with
  | nil => simp [Automaton.set_start_states]
  | cons s rest ih =>
    have hs : s ∈ A.states := h s (List.mem_cons_self ..)
    have hrest : ∀ x ∈ rest, x ∈ ({ A with start_states := insert s A.start_states } : Automaton).states :=
      fun x hx => h x (List.mem_cons_of_mem _ hx)
    simp only [Automaton.set_start_states, if_pos hs, ih _ hrest]
    congr 1
    simp only [List.toFinset_cons]
    rw [Finset.union_insert, Finset.insert_union]

/-- Claim C9: set_start_states accumulates rather than replaces — two
successive calls with registered states both succeed and leave the start-state
set equal to the previous start states together with both arguments (so a call
with an empty set changes nothing). -/
theorem set_start_states_accumulates (A : Automaton) (l1 l2 : List String)
    (h1 : ∀ s ∈ l1, s ∈ A.states) (h2 : ∀ s ∈ l2, s ∈ A.states) :
    (A.set_start_states l1).1 = none ∧
      (A.set_start_states l1).2.set_start_states l2 =
        (none, { A with start_states := A.start_states ∪ l1.toFinset ∪ l2.toFinset }) := by
  have hA1 : (A.set_start_states l1).2 = { A with start_states := A.start_states ∪ l1.toFinset } := by
    rw [set_start_states_registered A l1 h1]
  refine ⟨by rw [set_start_states_registered A l1 h1], ?_⟩
  rw [hA1,
    set_start_states_registered { A with start_states := A.start_states ∪ l1.toFinset } l2 h2]

/-- Witness for claim C9 at a concrete input. -/
theorem set_start_states_accumulates_witness :
    (∀ s ∈ ["q0"], s ∈ regOnly.states) ∧ (∀ s ∈ ([] : List String), s ∈ regOnly.states) ∧
      ((regOnly.set_start_states ["q0"]).1 = none ∧
        (regOnly.set_start_states ["q0"]).2.set_start_states [] =
          (none, { regOnly with start_states := regOnly.start_states ∪ ["q0"].toFinset ∪ ([] : List String).toFinset })) :=
  ⟨by decide, by decide, set_start_states_accumulates regOnly ["q0"] [] (by decide) (by decide)⟩

theorem checkStatesRegistered_bad (A : Automaton) (l : List String)
    (h : ∃ s ∈ l, s ∉ A.states) :
    checkStatesRegistered A l = some AutomatonError.StateNotFoundError := by
  induction l with
  | nil => simp at h
  | cons s rest ih =>
    by_cases hs : s ∈ A.states
    · rcases h with ⟨x, hx, hxs⟩
      rcases List.mem_cons.mp hx with rfl | hx
      · exact absurd hs hxs
      · simp only [checkStatesRegistered, if_pos hs]
        exact ih ⟨x, hx, hxs⟩
    · simp [checkStatesRegistered, hs]

/-- Claim C10: set_final_states validates every given state before any
mutation, so when some state is unregistered it raises StateNotFoundError and
the automaton — in particular its final-state set — is left exactly as it
was. -/
theorem set_final_states_atomic (A : Automaton) (l : List String)
    (h : ∃ s ∈ l, s ∉ A.states) :
    A.set_final_states l = (some AutomatonError.StateNotFoundError, A) := by
  simp only [Automaton.set_final_states, checkStatesRegistered_bad A l h]

/-- Witness for claim C10 at a concrete input. -/
theorem set_final_states_atomic_witness :
    (∃ s ∈ ["zz"], s ∉ regOnly.states) ∧
      regOnly.set_final_states ["zz"] = (some AutomatonError.StateNotFoundError, regOnly) :=
  ⟨⟨"zz", by decide, by decide⟩, set_final_states_atomic regOnly ["zz"] ⟨"zz", by decide, by decide⟩⟩


/-! Claims C4 and C7: concrete conversions. -/

/-- A one-state automaton on which no start state was ever set. -/
def noStart : Automaton := ⟨"N", {"q0"}, ∅, ∅, [], ∅⟩

/-- The automaton nfa_to_dfa returns for every source automaton whose
start-state set is empty: a single state A (the image of the empty subset),
which is the start state, no final states, no transitions, empty alphabet. -/
def emptyDfa : Automaton := ⟨"DFA", {"A"}, {"A"}, ∅, [], ∅⟩

/-- A two-state automaton with the single transition q0 --a--> q1. -/
def oneStep : Automaton := ⟨"W", {"q0", "q1"}, {"q0"}, {"q1"}, [("q0", [("a", {"q1"})])], {"a"}⟩

/-- The conversion of oneStep: state B (for the subset containing q1) has no
outgoing transition on the alphabet symbol a. -/
def oneStepDfa : Automaton := ⟨"DFA", {"B", "A"}, {"A"}, {"B"}, [("A", [("a", {"B"})])], {"a"}⟩

/-- Counterexample to claim C4 as stated: the conversion of oneStep succeeds,
its output alphabet contains a and its state B has no outgoing transition on
a (the loop records a transition only when the closed move set is non-empty),
so the output transition function is not total per symbol. -/
theorem nfa_to_dfa_output_not_total :
    nfa_to_dfa 10 oneStep = some (none, oneStepDfa) ∧ "B" ∈ oneStepDfa.states ∧
      "a" ∈ oneStepDfa.alphabet ∧ destSet oneStepDfa "B" "a" = ∅ := by
  refine ⟨by decide, by decide, by decide, by decide⟩

/-- Counterexample to claim C7 as stated: on a source automaton with no start
states the conversion does succeed, but the returned DFA is not an automaton
with no reachable states — its start state A is reachable (after the empty
word). -/
theorem nfa_to_dfa_no_start_has_reachable_state :
    noStart.start_states = ∅ ∧ nfa_to_dfa 5 noStart = some (none, emptyDfa) ∧
      "A" ∈ reachSet emptyDfa [] := by
  refine ⟨by decide, by decide, ?_⟩
  show "A" ∈ closureSet emptyDfa ↑emptyDfa.start_states
  exact ⟨"A", by simp [emptyDfa], Relation.ReflTransGen.refl⟩

theorem nfa_moves_empty (A : Automaton) (a : String) : nfa_moves A ∅ a = ∅ := by
  simp [nfa_moves]

theorem processSymbols_empty_subset (A : Automaton) (n : Nat) :
    ∀ (l : List String) (st : ConvState), processSymbols A n ∅ l st = some st := by
  intro l
  induction l with
  | nil => intro st; rfl
  | cons a rest ih =>
    intro st
    have hp : processSymbol A n ∅ st a = some st := by
      have hm : epsilon_set_closure A n (nfa_moves A ∅ a) = some ∅ := by
        rw [nfa_moves_empty]; rfl
      simp [processSymbol, hm]
    simp only [processSymbols, hp]
    exact ih st

/-- Claim C7, amended: when the source automaton has an empty start-state set
(hence an empty start-state closure), nfa_to_dfa succeeds without raising any
error — at any sufficient fuel — and returns the one-state automaton emptyDfa,
whose accepting language is empty (it has no final states), though its single
state A is reachable. -/
theorem nfa_to_dfa_empty_start (A : Automaton) (fuel : Nat)
    (hs : A.start_states = ∅) (hfuel : 2 ≤ fuel) :
    nfa_to_dfa fuel A = some (none, emptyDfa) ∧ ∀ w, ¬ accepts emptyDfa w := by
  constructor
  · obtain ⟨k, rfl⟩ : ∃ k, fuel = k + 2 := ⟨fuel - 2, by omega⟩
    have h1 : epsilon_set_closure A (k + 2) A.start_states = some ∅ := by rw [hs]; rfl
    have h2 : convLoop A (k + 2)
        { dfa_transitions := [], dfa_states := [(∅, markString 'A')],
          queue := [∅], state_mark := 'A', new_alphabet := ∅ } =
        some { dfa_transitions := [(∅, [])], dfa_states := [(∅, markString 'A')],
               queue := [], state_mark := 'A', new_alphabet := ∅ } := by
      show convLoop A (k + 1 + 1) _ = _
      simp only [convLoop, processSymbols_empty_subset]
      rfl
    have h3 : buildDfa A
        { dfa_transitions := [(∅, [])], dfa_states := [(∅, markString 'A')],
          queue := [], state_mark := 'A', new_alphabet := ∅ } = (none, emptyDfa) := by
      have hst : addStatesLoop A [((∅ : Finset String), markString 'A')] (Automaton.init "DFA") ∅ =
          (none, ⟨"DFA", {"A"}, ∅, ∅, [], ∅⟩, ∅) := by
        simp only [addStatesLoop, Automaton.add_state, Automaton.init]
        rw [if_neg (Finset.not_mem_empty _), if_neg (by simp [Finset.empty_inter])]
        rfl
      unfold buildDfa
      rw [hst]
      rfl
    simp only [nfa_to_dfa, h1, h2, h3]
  · rintro w ⟨q, _, hq⟩
    exact Finset.not_mem_empty q hq

/-- Witness for the amended claim C7 at a concrete input. -/
theorem nfa_to_dfa_empty_start_witness :
    (noStart.start_states = ∅ ∧ 2 ≤ 5) ∧
      (nfa_to_dfa 5 noStart = some (none, emptyDfa) ∧ ∀ w, ¬ accepts emptyDfa w) :=
  ⟨⟨by decide, by decide⟩, nfa_to_dfa_empty_start noStart 5 (by decide) (by decide)⟩

/-! Bridge lemmas between the executable conversion and the spec-level
semantics, and dict-update lemmas for the conversion loop. -/

theorem alookup_isSome_iff {α β : Type} [DecidableEq α] (l : List (α × β)) (k : α) :
    (alookup l k).isSome ↔ k ∈ keysOf l := by
  rcases h : alookup l k with _ | v
  · simpa using (alookup_eq_none l k).mp h
  · simp only [Option.isSome_some, true_iff]
    exact List.mem_map_of_mem Prod.fst (alookup_mem h)

theorem dictSetSym_fresh (d : List (String × Finset String)) (a : String) (v : Finset String)
    (h : a ∉ keysOf d) : dictSetSym d a v = d ++ [(a, v)] := by
  induction d with
  | nil => rfl
  | cons p rest ih =>
    simp only [keysOf, List.map_cons, List.mem_cons] at h
    push_neg at h
    have hne : ¬ p.1 = a := fun he => h.1 he.symm
    simp only [dictSetSym, if_neg hne, List.cons_append]
    rw [ih h.2]

theorem setTrans_split (T0 : List (Finset String × List (String × Finset String)))
    (S : Finset String) (d : List (String × Finset String)) (a : String) (v : Finset String)
    (h : S ∉ keysOf T0) :
    setTrans (T0 ++ [(S, d)]) S a v = T0 ++ [(S, dictSetSym d a v)] := by
  induction T0 with
  | nil => simp [setTrans]
  | cons p rest ih =>
    simp only [keysOf, List.map_cons, List.mem_cons] at h
    push_neg at h
    have hne : ¬ p.1 = S := fun he => h.1 he.symm
    simp only [List.cons_append, setTrans, if_neg hne]
    exact congrArg (p :: ·) (ih h.2)

theorem destSet_lookup_none {A : Automaton} {s : String} (h : alookup A.transitions s = none)
    (a : String) : destSet A s a = ∅ := by
  simp [destSet, Automaton.get_transitions_from, h, alookup]

theorem destSet_lookup_some {A : Automaton} {s : String} {d : List (String × Finset String)}
    (h : alookup A.transitions s = some d) (a : String) :
    destSet A s a = match alookup d a with | none => ∅ | some v => v := by
  simp [destSet, Automaton.get_transitions_from, h]

theorem nfa_moves_coe (A : Automaton) (S : Finset String) (a : String) :
    (↑(nfa_moves A S a) : Set String) = movesSet A ↑S a := by
  ext t
  simp only [Finset.mem_coe, nfa_moves, Finset.mem_sup, movesSet, Set.mem_setOf_eq]

theorem epsilon_set_closure_moves (A : Automaton) (n : Nat) (S R : Finset String) (a : String)
    (h : epsilon_set_closure A n (nfa_moves A S a) = some R) :
    (↑R : Set String) = stepSet A ↑S a := by
  rw [epsilon_set_closure_sound A n _ R h, stepSet, nfa_moves_coe]

theorem closureSet_empty (A : Automaton) : closureSet A ∅ = ∅ := by
  ext t
  simp [closureSet]

theorem movesSet_empty (A : Automaton) (a : String) : movesSet A ∅ a = ∅ := by
  ext t
  simp [movesSet]

theorem stepSet_empty (A : Automaton) (a : String) : stepSet A ∅ a = ∅ := by
  rw [stepSet, movesSet_empty, closureSet_empty]

theorem foldl_stepSet_empty (A : Automaton) (w : List String) :
    w.foldl (stepSet A) ∅ = ∅ := by
  induction w with
  | nil => rfl
  | cons a rest ih => simp only [List.foldl_cons, stepSet_empty, ih]

theorem movesSet_singleton (B : Automaton) (m : String) (a : String) :
    movesSet B {m} a = ↑(destSet B m a) := by
  ext t
  simp [movesSet]

theorem epsReach_eq_of_no_eps {B : Automaton} (h : ∀ u, destSet B u eps = ∅) {s t : String}
    (hr : EpsReach B s t) : s = t := by
  induction hr with
  | refl => rfl
  | tail _ hbc ih =>
    rename_i b c _
    have hbc' : c ∈ destSet B b eps := hbc
    rw [h b] at hbc'
    exact absurd hbc' (Finset.not_mem_empty c)

theorem closureSet_of_no_eps {B : Automaton} (h : ∀ u, destSet B u eps = ∅) (X : Set String) :
    closureSet B X = X := by
  ext t
  constructor
  · rintro ⟨s, hs, hr⟩
    exact (epsReach_eq_of_no_eps h hr) ▸ hs
  · intro ht
    exact ⟨t, ht, Relation.ReflTransGen.refl⟩

/-- Per-entry invariant of the conversion loop: the dict entry recorded for
the subset S covers exactly the processed symbols of the alphabet, with the
spec-level one-step successor, and every recorded successor is a discovered
subset. -/
def EntrySpec (A : Automaton) (ks : List (Finset String)) (S : Finset String)
    (d : List (String × Finset String)) (done : List String) : Prop :=
  (keysOf d).Nodup ∧ (∀ p ∈ d, p.1 ∈ done) ∧
    ∀ a ∈ done, (stepSet A ↑S a = ∅ → alookup d a = none) ∧
      (stepSet A ↑S a ≠ ∅ →
        ∃ D, alookup d a = some D ∧ (↑D : Set String) = stepSet A ↑S a ∧ D ∈ ks)

theorem EntrySpec_mono {A : Automaton} {ks ks' : List (Finset String)} {S : Finset String}
    {d : List (String × Finset String)} {done : List String}
    (hks : ∀ x ∈ ks, x ∈ ks') (h : EntrySpec A ks S d done) : EntrySpec A ks' S d done := by
  refine ⟨h.1, h.2.1, fun a ha => ⟨(h.2.2 a ha).1, fun hne => ?_⟩⟩
  rcases (h.2.2 a ha).2 hne with ⟨D, h1, h2, h3⟩
  exact ⟨D, h1, h2, hks D h3⟩

/-- Whole-loop invariant: discovered subsets have no duplicates, and they
split into the processed ones (those with a dfa_transitions entry, complete
over the whole alphabet) and the queued ones. -/
def LoopInv (A : Automaton) (st : ConvState) : Prop :=
  (keysOf st.dfa_states).Nodup ∧
    (keysOf st.dfa_transitions ++ st.queue).Perm (keysOf st.dfa_states) ∧
    ∀ p ∈ st.dfa_transitions, EntrySpec A (keysOf st.dfa_states) p.1 p.2 (sortStr A.alphabet)

theorem keysOf_append {α β : Type} (l1 l2 : List (α × β)) :
    keysOf (l1 ++ l2) = keysOf l1 ++ keysOf l2 := by
  simp [keysOf]

theorem processSymbol_spec (A : Automaton) (n : Nat) (S : Finset String) (st st' : ConvState)
    (a : String) (T0 : List (Finset String × List (String × Finset String)))
    (d : List (String × Finset String))
    (hrun : processSymbol A n S st a = some st')
    (hT : st.dfa_transitions = T0 ++ [(S, d)])
    (hT0 : S ∉ keysOf T0)
    (hnd : (keysOf st.dfa_states).Nodup)
    (ha : a ∉ keysOf d) :
    ∃ (ext : List (Finset String × String)) (d' : List (String × Finset String)),
      st'.dfa_transitions = T0 ++ [(S, d')] ∧
      st'.dfa_states = st.dfa_states ++ ext ∧
      st'.queue = st.queue ++ keysOf ext ∧
      st'.new_alphabet ⊆ insert a st.new_alphabet ∧
      st.new_alphabet ⊆ st'.new_alphabet ∧
      (keysOf st'.dfa_states).Nodup ∧
      ((stepSet A ↑S a = ∅ ∧ d' = d ∧ ext = []) ∨
        ∃ D : Finset String, (↑D : Set String) = stepSet A ↑S a ∧ D ≠ ∅ ∧ d' = d ++ [(a, D)] ∧
          D ∈ keysOf st'.dfa_states) := by
  rcases hc : epsilon_set_closure A n (nfa_moves A S a) with _ | nxt
  · simp only [processSymbol, hc] at hrun
    exact Option.noConfusion hrun
  · simp only [processSymbol, hc] at hrun
    have hcoe : (↑nxt : Set String) = stepSet A ↑S a := epsilon_set_closure_moves A n S nxt a hc
    by_cases hempty : nxt = ∅
    · rw [if_pos hempty] at hrun
      cases hrun
      refine ⟨[], d, hT, by simp, by simp [keysOf], Finset.subset_insert a _,
        Finset.Subset.refl _, hnd, Or.inl ⟨?_, rfl, rfl⟩⟩
      rw [← hcoe, hempty]
      exact Finset.coe_empty
    · rw [if_neg hempty] at hrun
      by_cases hseen : (alookup st.dfa_states nxt).isSome
      · rw [if_pos hseen] at hrun
        cases hrun
        refine ⟨[], d ++ [(a, nxt)], ?_, by simp, by simp [keysOf],
          Finset.Subset.refl _, Finset.subset_insert a _, hnd, Or.inr ⟨nxt, hcoe, hempty, rfl, ?_⟩⟩
        · show setTrans st.dfa_transitions S a nxt = T0 ++ [(S, d ++ [(a, nxt)])]
          rw [hT, setTrans_split T0 S d a nxt hT0, dictSetSym_fresh d a nxt ha]
        · exact (alookup_isSome_iff _ _).mp hseen
      · rw [if_neg hseen] at hrun
        cases hrun
        have hnotin : nxt ∉ keysOf st.dfa_states := by
          intro hmem
          exact hseen ((alookup_isSome_iff _ _).mpr hmem)
        refine ⟨[(nxt, markString (Char.ofNat (st.state_mark.toNat + 1)))], d ++ [(a, nxt)],
          ?_, by simp, by simp [keysOf], Finset.Subset.refl _, Finset.subset_insert a _, ?_,
          Or.inr ⟨nxt, hcoe, hempty, rfl, ?_⟩⟩
        · show setTrans st.dfa_transitions S a nxt = T0 ++ [(S, d ++ [(a, nxt)])]
          rw [hT, setTrans_split T0 S d a nxt hT0, dictSetSym_fresh d a nxt ha]
        · show (keysOf (st.dfa_states ++ [(nxt, _)])).Nodup
          rw [keysOf_append, List.nodup_append]
          refine ⟨hnd, List.nodup_singleton _, ?_⟩
          intro x hx hx2
          simp only [keysOf, List.map_cons, List.map_nil, List.mem_singleton] at hx2
          subst hx2
          exact hnotin hx
        · show nxt ∈ keysOf (st.dfa_states ++ [(nxt, _)])
          rw [keysOf_append]
          exact List.mem_append_right _ (by simp [keysOf])

theorem alookup_snoc_ne {α β : Type} [DecidableEq α] (d : List (α × β)) (a b : α) (v : β)
    (h : b ≠ a) : alookup (d ++ [(a, v)]) b = alookup d b := by
  rw [alookup_append]
  rcases alookup d b with _ | w
  · show alookup [(a, v)] b = none
    have hne : ¬ a = b := fun he => h he.symm
    simp [alookup, hne]
  · rfl

theorem alookup_snoc_self {α β : Type} [DecidableEq α] (d : List (α × β)) (a : α) (v : β)
    (h : a ∉ keysOf d) : alookup (d ++ [(a, v)]) a = some v := by
  rw [alookup_append, (alookup_eq_none d a).mpr h]
  simp [alookup]

theorem processSymbols_spec (A : Automaton) (n : Nat) (S : Finset String) :
    ∀ (todo done : List String) (st st' : ConvState)
      (T0 : List (Finset String × List (String × Finset String)))
      (d : List (String × Finset String)),
      processSymbols A n S todo st = some st' →
      st.dfa_transitions = T0 ++ [(S, d)] →
      S ∉ keysOf T0 →
      (keysOf st.dfa_states).Nodup →
      (done ++ todo).Nodup →
      EntrySpec A (keysOf st.dfa_states) S d done →
      ∃ (ext : List (Finset String × String)) (d' : List (String × Finset String)),
        st'.dfa_transitions = T0 ++ [(S, d')] ∧
        st'.dfa_states = st.dfa_states ++ ext ∧
        st'.queue = st.queue ++ keysOf ext ∧
        st'.new_alphabet ⊆ st.new_alphabet ∪ todo.toFinset ∧
        st.new_alphabet ⊆ st'.new_alphabet ∧
        (keysOf st'.dfa_states).Nodup ∧
        EntrySpec A (keysOf st'.dfa_states) S d' (done ++ todo) := by
  intro todo
  induction todo with
  | nil =>
    intro done st st' T0 d hrun hT hT0 hnd hdn hES
    cases hrun
    exact ⟨[], d, hT, by simp, by simp [keysOf], by simp, Finset.Subset.refl _, hnd,
      by simpa using hES⟩
  | cons a rest ih =>
    intro done st st' T0 d hrun hT hT0 hnd hdn hES
    have hadone : a ∉ done := by
      rcases List.nodup_append.mp hdn with ⟨_, _, hdisj⟩
      intro hmem
      exact hdisj hmem (List.mem_cons_self _ _)
    have hfresh : a ∉ keysOf d := by
      intro hk
      rcases List.mem_map.mp hk with ⟨p, hp, hfst⟩
      exact hadone (hfst ▸ hES.2.1 p hp)
    rcases hps : processSymbol A n S st a with _ | st1
    · simp only [processSymbols, hps] at hrun
      exact Option.noConfusion hrun
    · simp only [processSymbols, hps] at hrun
      obtain ⟨ext1, d1, h1T, h1s, h1q, h1na, h1nb, h1nd, h1disj⟩ :=
        processSymbol_spec A n S st st1 a T0 d hps hT hT0 hnd hfresh
    -- the keys only grow from st to st1
      have hks1 : ∀ x ∈ keysOf st.dfa_states, x ∈ keysOf st1.dfa_states := by
        intro x hx
        rw [h1s, keysOf_append]
        exact List.mem_append_left _ hx
      have hES1 : EntrySpec A (keysOf st1.dfa_states) S d1 (done ++ [a]) := by
        rcases h1disj with ⟨hstep, rfl, rfl⟩ | ⟨D, hDcoe, hDne, rfl, hDmem⟩
        · refine ⟨hES.1, fun p hp => List.mem_append_left _ (hES.2.1 p hp), fun b hb => ?_⟩
          rcases List.mem_append.mp hb with hb | hb
          · exact ⟨((EntrySpec_mono hks1 hES).2.2 b hb).1, ((EntrySpec_mono hks1 hES).2.2 b hb).2⟩
          · have hba : b = a := by simpa using hb
            subst hba
            exact ⟨fun _ => (alookup_eq_none _ b).mpr hfresh, fun hne => absurd hstep hne⟩
        · refine ⟨?_, ?_, fun b hb => ?_⟩
          · rw [keysOf_append, List.nodup_append]
            refine ⟨hES.1, by simp [keysOf], ?_⟩
            intro x hx hx2
            simp only [keysOf, List.map_cons, List.map_nil, List.mem_singleton] at hx2
            subst hx2
            exact hfresh hx
          · intro p hp
            rcases List.mem_append.mp hp with hp | hp
            · exact List.mem_append_left _ (hES.2.1 p hp)
            · have : p = (a, D) := by simpa using hp
              subst this
              exact List.mem_append_right _ (by simp)
          · rcases List.mem_append.mp hb with hb | hb
            · have hbne : b ≠ a := fun he => hadone (he ▸ hb)
              rw [alookup_snoc_ne d a b D hbne]
              exact ⟨((EntrySpec_mono hks1 hES).2.2 b hb).1,
                ((EntrySpec_mono hks1 hES).2.2 b hb).2⟩
            · have hba : b = a := by simpa using hb
              subst hba
              constructor
              · intro hstep
                rw [← hDcoe] at hstep
                exact absurd (Finset.coe_eq_empty.mp hstep) hDne
              · intro _
                exact ⟨D, alookup_snoc_self d b D hfresh, hDcoe, hDmem⟩
      have hdn1 : ((done ++ [a]) ++ rest).Nodup := by
        rw [List.append_assoc]
        exact hdn
      obtain ⟨ext2, d2, h2T, h2s, h2q, h2na, h2nb, h2nd, h2ES⟩ :=
        ih (done ++ [a]) st1 st' T0 d1 hrun h1T hT0 h1nd hdn1 hES1
      refine ⟨ext1 ++ ext2, d2, h2T, ?_, ?_, ?_, ?_, h2nd, ?_⟩
      · rw [h2s, h1s, List.append_assoc]
      · rw [h2q, h1q, keysOf_append, List.append_assoc]
      · intro x hx
        rcases Finset.mem_union.mp (h2na hx) with hx1 | hx1
        · rcases Finset.mem_insert.mp (h1na hx1) with rfl | hx2
          · exact Finset.mem_union_right _ (by simp)
          · exact Finset.mem_union_left _ hx2
        · exact Finset.mem_union_right _ (by simp [List.mem_toFinset.mp hx1])
      · exact fun x hx => h2nb (h1nb hx)
      · have heq : (done ++ [a]) ++ rest = done ++ a :: rest := by simp
        rw [heq] at h2ES
        exact h2ES

theorem toFinset_sortStr (s : Finset String) : (sortStr s).toFinset = s := by
  ext x
  rw [List.mem_toFinset, mem_sortStr]

theorem convLoop_spec (A : Automaton) :
    ∀ (n : Nat) (st stF : ConvState),
      convLoop A n st = some stF →
      LoopInv A st →
      stF.queue = [] ∧ LoopInv A stF ∧
        (∃ ext, stF.dfa_states = st.dfa_states ++ ext) ∧
        stF.new_alphabet ⊆ st.new_alphabet ∪ A.alphabet := by
  intro n
  induction n with
  | zero => intro st stF h _; exact Option.noConfusion h
  | succ n ih =>
    intro st stF hrun hInv
    obtain ⟨hnd, hperm, hent⟩ := hInv
    rcases hq : st.queue with _ | ⟨S, qrest⟩
    · simp only [convLoop, hq] at hrun
      cases hrun
      exact ⟨hq, ⟨hnd, hperm, hent⟩, ⟨[], by simp⟩, Finset.subset_union_left⟩
    · simp only [convLoop, hq] at hrun
      rw [hq] at hperm
      have hndTq : (keysOf st.dfa_transitions ++ (S :: qrest)).Nodup :=
        hperm.nodup_iff.mpr hnd
      have hS_not_T : S ∉ keysOf st.dfa_transitions := by
        rcases List.nodup_append.mp hndTq with ⟨_, _, hdisj⟩
        intro hmem
        exact hdisj hmem (List.mem_cons_self _ _)
      rcases hps : processSymbols A n S (sortStr A.alphabet)
          { st with queue := qrest, dfa_transitions := st.dfa_transitions ++ [(S, [])] }
          with _ | st'
      · rw [hps] at hrun
        exact Option.noConfusion hrun
      · rw [hps] at hrun
        obtain ⟨ext1, d', hT', hs', hq', hna', hnb', hnd', hES'⟩ :=
          processSymbols_spec A n S (sortStr A.alphabet) [] _ st' st.dfa_transitions [] hps rfl
            hS_not_T hnd (by simpa using nodup_sortStr A.alphabet)
            ⟨List.nodup_nil, by simp, by simp⟩
        have hks' : ∀ x ∈ keysOf st.dfa_states, x ∈ keysOf st'.dfa_states := by
          intro x hx
          rw [hs', keysOf_append]
          exact List.mem_append_left _ hx
        have hInv' : LoopInv A st' := by
          refine ⟨hnd', ?_, ?_⟩
          · rw [hT', hq']
            show (keysOf (st.dfa_transitions ++ [(S, d')]) ++ (qrest ++ keysOf ext1)).Perm _
            rw [keysOf_append]
            have heq : (keysOf st.dfa_transitions ++ keysOf [(S, d')]) ++ (qrest ++ keysOf ext1) =
                (keysOf st.dfa_transitions ++ (S :: qrest)) ++ keysOf ext1 := by
              simp [keysOf]
            rw [heq, hs', keysOf_append]
            exact hperm.append_right _
          · intro p hp
            rw [hT'] at hp
            rcases List.mem_append.mp hp with hp | hp
            · exact EntrySpec_mono hks' (hent p hp)
            · have : p = (S, d') := by simpa using hp
              subst this
              simpa using hES'
        obtain ⟨hqF, hInvF, ⟨ext2, hsF⟩, hnaF⟩ := ih st' stF hrun hInv'
        refine ⟨hqF, hInvF, ⟨ext1 ++ ext2, ?_⟩, ?_⟩
        · rw [hsF, hs', List.append_assoc]
        · intro x hx
          rcases Finset.mem_union.mp (hnaF hx) with hx1 | hx1
          · rcases Finset.mem_union.mp (hna' hx1) with hx2 | hx2
            · exact Finset.mem_union_left _ hx2
            · exact Finset.mem_union_right _ (by rwa [toFinset_sortStr] at hx2)
          · exact Finset.mem_union_right _ hx1

/-! Characterization of add_transition in terms of destSet, and structural
well-formedness of the transitions dict. -/

theorem destSet_getD (A : Automaton) (s b : String) :
    destSet A s b = (alookup ((alookup A.transitions s).getD []) b).getD ∅ := by
  rw [destSet, Automaton.get_transitions_from]
  rcases alookup A.transitions s with _ | d
  · simp [alookup]
  · simp only [Option.getD_some]
    rcases alookup d b with _ | v <;> rfl

theorem alookup_dictInsertDest (a t : String) :
    ∀ (d : List (String × Finset String)) (b : String),
      alookup (dictInsertDest d a t) b =
        if b = a then some (insert t ((alookup d a).getD ∅)) else alookup d b := by
  intro d
  induction d with
  | nil =>
    intro b
    by_cases hb : b = a
    · subst hb
      simp [dictInsertDest, alookup]
    · have : ¬ a = b := fun he => hb he.symm
      simp [dictInsertDest, alookup, hb, this]
  | cons p rest ih =>
    intro b
    by_cases hpa : p.1 = a
    · subst hpa
      by_cases hb : b = p.1
      · subst hb
        simp [dictInsertDest, alookup]
      · have : ¬ p.1 = b := fun he => hb he.symm
        simp [dictInsertDest, alookup, hb, this]
    · by_cases hpb : p.1 = b
      · have hba : ¬ b = a := fun he => hpa (hpb.trans he)
        simp [dictInsertDest, alookup, hpa, hpb, hba]
      · simp [dictInsertDest, alookup, hpa, hpb, ih b]

theorem alookup_transInsert (f a t : String) :
    ∀ (T : List (String × List (String × Finset String))) (q : String),
      alookup (transInsert T f a t) q =
        if q = f then some (dictInsertDest ((alookup T f).getD []) a t) else alookup T q := by
  intro T
  induction T with
  | nil =>
    intro q
    by_cases hq : q = f
    · subst hq
      simp [transInsert, alookup, dictInsertDest]
    · have : ¬ f = q := fun he => hq he.symm
      simp [transInsert, alookup, hq, this]
  | cons p rest ih =>
    intro q
    by_cases hpf : p.1 = f
    · subst hpf
      by_cases hq : q = p.1
      · subst hq
        simp [transInsert, alookup]
      · have : ¬ p.1 = q := fun he => hq he.symm
        simp [transInsert, alookup, hq, this]
    · by_cases hpq : p.1 = q
      · have hq2 : ¬ q = f := fun he => hpf (hpq.trans he)
        simp [transInsert, alookup, hpf, hpq, hq2]
      · simp [transInsert, alookup, hpf, hpq, ih q]

theorem add_transition_ok {A A' : Automaton} {f t a : String}
    (h : A.add_transition f t a = (none, A')) :
    f ∈ A.states ∧ t ∈ A.states ∧
      A' = { A with transitions := transInsert A.transitions f a t } := by
  by_cases hf : f ∈ A.states
  · by_cases ht : t ∈ A.states
    · rw [Automaton.add_transition, if_neg (by simpa using hf), if_neg (by simpa using ht)] at h
      injection h with h1 h2
      exact ⟨hf, ht, h2.symm⟩
    · rw [Automaton.add_transition, if_neg (by simpa using hf), if_pos (by simpa using ht)] at h
      cases h
  · rw [Automaton.add_transition, if_pos (by simpa using hf)] at h
    cases h

theorem add_transition_destSet {A A' : Automaton} {f t a : String}
    (h : A.add_transition f t a = (none, A')) (q b : String) :
    destSet A' q b = if q = f ∧ b = a then insert t (destSet A q b) else destSet A q b := by
  obtain ⟨hf, ht, rfl⟩ := add_transition_ok h
  rw [destSet_getD, destSet_getD]
  show (alookup ((alookup (transInsert A.transitions f a t) q).getD []) b).getD ∅ = _
  rw [alookup_transInsert f a t A.transitions q]
  by_cases hq : q = f
  · subst hq
    rw [if_pos rfl, Option.getD_some, alookup_dictInsertDest a t]
    by_cases hb : b = a
    · subst hb
      rw [if_pos rfl, if_pos ⟨rfl, rfl⟩, Option.getD_some]
    · rw [if_neg hb, if_neg (fun hc => hb hc.2)]
  · rw [if_neg hq, if_neg (fun hc => hq hc.1)]

/-- Structural well-formedness of the transitions dict of an automaton built
through the API: unique keys at both dict levels, and no empty destination
set (add_transition always inserts a state into the set it creates). -/
def StructWF (A : Automaton) : Prop :=
  (keysOf A.transitions).Nodup ∧
    ∀ p ∈ A.transitions, (keysOf p.2).Nodup ∧ ∀ q ∈ p.2, q.2 ≠ ∅

theorem dictInsertDest_keys (a t : String) :
    ∀ d : List (String × Finset String),
      keysOf (dictInsertDest d a t) = if a ∈ keysOf d then keysOf d else keysOf d ++ [a] := by
  intro d
  induction d with
  | nil => simp [dictInsertDest, keysOf]
  | cons p rest ih =>
    by_cases hpa : p.1 = a
    · subst hpa
      simp [dictInsertDest, keysOf]
    · have hne : ¬ a = p.1 := fun he => hpa he.symm
      have hkeys : keysOf (dictInsertDest (p :: rest) a t) = p.1 :: keysOf (dictInsertDest rest a t) := by
        rw [dictInsertDest, if_neg hpa]
        rfl
      rw [hkeys, ih]
      by_cases hmem : a ∈ keysOf rest
      · rw [if_pos hmem, if_pos (show a ∈ keysOf (p :: rest) from List.mem_cons_of_mem _ hmem)]
        rfl
      · rw [if_neg hmem, if_neg (show a ∉ keysOf (p :: rest) from
          fun hc => (List.mem_cons.mp hc).elim (fun he => hne he) hmem)]
        rfl

theorem dictInsertDest_mem (a t : String) :
    ∀ (d : List (String × Finset String)) (q : String × Finset String),
      q ∈ dictInsertDest d a t →
        q ∈ d ∨ (q.1 = a ∧ q.2 = insert t ((alookup d a).getD ∅)) := by
  intro d
  induction d with
  | nil =>
    intro q hq
    simp only [dictInsertDest, List.mem_singleton] at hq
    subst hq
    exact Or.inr ⟨rfl, by simp [alookup]⟩
  | cons p rest ih =>
    intro q hq
    by_cases hpa : p.1 = a
    · rw [dictInsertDest, if_pos hpa] at hq
      rcases List.mem_cons.mp hq with rfl | hq
      · exact Or.inr ⟨hpa, by rw [alookup, if_pos hpa]; rfl⟩
      · exact Or.inl (List.mem_cons_of_mem _ hq)
    · rw [dictInsertDest, if_neg hpa] at hq
      rcases List.mem_cons.mp hq with rfl | hq
      · exact Or.inl (List.mem_cons_self _ _)
      · rcases ih q hq with hh | ⟨h1, h2⟩
        · exact Or.inl (List.mem_cons_of_mem _ hh)
        · refine Or.inr ⟨h1, ?_⟩
          rw [h2, alookup, if_neg (h1 ▸ hpa)]

theorem transInsert_keys (f a t : String) :
    ∀ T : List (String × List (String × Finset String)),
      keysOf (transInsert T f a t) = if f ∈ keysOf T then keysOf T else keysOf T ++ [f] := by
  intro T
  induction T with
  | nil => simp [transInsert, keysOf]
  | cons p rest ih =>
    by_cases hpf : p.1 = f
    · subst hpf
      simp [transInsert, keysOf]
    · have hne : ¬ f = p.1 := fun he => hpf he.symm
      have hkeys : keysOf (transInsert (p :: rest) f a t) = p.1 :: keysOf (transInsert rest f a t) := by
        rw [transInsert, if_neg hpf]
        rfl
      rw [hkeys, ih]
      by_cases hmem : f ∈ keysOf rest
      · rw [if_pos hmem, if_pos (show f ∈ keysOf (p :: rest) from List.mem_cons_of_mem _ hmem)]
        rfl
      · rw [if_neg hmem, if_neg (show f ∉ keysOf (p :: rest) from
          fun hc => (List.mem_cons.mp hc).elim (fun he => hne he) hmem)]
        rfl

theorem transInsert_mem (f a t : String) :
    ∀ (T : List (String × List (String × Finset String))) (p : String × List (String × Finset String)),
      p ∈ transInsert T f a t →
        p ∈ T ∨ (p.1 = f ∧ p.2 = dictInsertDest ((alookup T f).getD []) a t) := by
  intro T
  induction T with
  | nil =>
    intro p hp
    simp only [transInsert, List.mem_singleton] at hp
    subst hp
    exact Or.inr ⟨rfl, by simp [alookup, dictInsertDest]⟩
  | cons r rest ih =>
    intro p hp
    by_cases hrf : r.1 = f
    · rw [transInsert, if_pos hrf] at hp
      rcases List.mem_cons.mp hp with rfl | hp
      · exact Or.inr ⟨hrf, by rw [alookup, if_pos hrf]; rfl⟩
      · exact Or.inl (List.mem_cons_of_mem _ hp)
    · rw [transInsert, if_neg hrf] at hp
      rcases List.mem_cons.mp hp with rfl | hp
      · exact Or.inl (List.mem_cons_self _ _)
      · rcases ih p hp with hh | ⟨h1, h2⟩
        · exact Or.inl (List.mem_cons_of_mem _ hh)
        · refine Or.inr ⟨h1, ?_⟩
          rw [h2, alookup, if_neg (h1 ▸ hrf)]

theorem dictInsertDest_structWF {d : List (String × Finset String)} (a t : String)
    (hnd : (keysOf d).Nodup) (hv : ∀ q ∈ d, q.2 ≠ ∅) :
    (keysOf (dictInsertDest d a t)).Nodup ∧ ∀ q ∈ dictInsertDest d a t, q.2 ≠ ∅ := by
  constructor
  · rw [dictInsertDest_keys a t d]
    by_cases hmem : a ∈ keysOf d
    · rwa [if_pos hmem]
    · rw [if_neg hmem, List.nodup_append]
      refine ⟨hnd, List.nodup_singleton _, ?_⟩
      intro x hx hx2
      simp only [List.mem_singleton] at hx2
      subst hx2
      exact hmem hx
  · intro q hq
    rcases dictInsertDest_mem a t d q hq with hh | ⟨_, h2⟩
    · exact hv q hh
    · rw [h2]
      exact Finset.insert_ne_empty t _

theorem add_transition_structWF {A A' : Automaton} {f t a : String}
    (h : A.add_transition f t a = (none, A')) (hWF : StructWF A) : StructWF A' := by
  obtain ⟨hf, ht, rfl⟩ := add_transition_ok h
  constructor
  · show (keysOf (transInsert A.transitions f a t)).Nodup
    rw [transInsert_keys f a t A.transitions]
    by_cases hmem : f ∈ keysOf A.transitions
    · rw [if_pos hmem]
      exact hWF.1
    · rw [if_neg hmem, List.nodup_append]
      refine ⟨hWF.1, List.nodup_singleton _, ?_⟩
      intro x hx hx2
      simp only [List.mem_singleton] at hx2
      subst hx2
      exact hmem hx
  · intro p hp
    rcases transInsert_mem f a t A.transitions p hp with hh | ⟨_, h2⟩
    · exact hWF.2 p hh
    · rcases hd0 : alookup A.transitions f with _ | d0
      · rw [hd0] at h2
        simp only [Option.getD_none] at h2
        rw [h2]
        exact dictInsertDest_structWF a t List.nodup_nil (by simp)
      · rw [hd0] at h2
        simp only [Option.getD_some] at h2
        have hmem := alookup_mem hd0
        rw [h2]
        exact dictInsertDest_structWF a t (hWF.2 _ hmem).1 (hWF.2 _ hmem).2

theorem get_type_DFA {A : Automaton} (hWF : StructWF A)
    (heps : ∀ q, destSet A q eps = ∅) (hcard : ∀ q b, (destSet A q b).card ≤ 1) :
    A.get_type = AutomatonType.DFA := by
  have h1 : A.transitions.any (fun p => (alookup p.2 eps).isSome) = false := by
    rw [List.any_eq_false]
    intro p hp
    simp only [Bool.not_eq_true, Option.not_isSome, Option.isNone_iff_eq_none]
    rcases hl : alookup p.2 eps with _ | v
    · rfl
    · exfalso
      have hvmem := alookup_mem hl
      have hvne : v ≠ ∅ := (hWF.2 p hp).2 _ hvmem
      have hTp : alookup A.transitions p.1 = some p.2 := alookup_nodup_of_mem hWF.1 hp
      have : destSet A p.1 eps = v := by
        rw [destSet_getD, hTp, Option.getD_some, hl, Option.getD_some]
      exact hvne (this ▸ heps p.1)
  have h2 : A.transitions.any (fun p => p.2.any (fun q => decide (2 ≤ q.2.card))) = false := by
    rw [List.any_eq_false]
    intro p hp
    simp only [Bool.not_eq_true, List.any_eq_false]
    intro q hq
    simp only [Bool.not_eq_true, decide_eq_false_iff_not, not_le]
    have hTp : alookup A.transitions p.1 = some p.2 := alookup_nodup_of_mem hWF.1 hp
    have hdq : alookup p.2 q.1 = some q.2 := alookup_nodup_of_mem (hWF.2 p hp).1 hq
    have : destSet A p.1 q.1 = q.2 := by
      rw [destSet_getD, hTp, Option.getD_some, hdq, Option.getD_some]
    have := this ▸ hcard p.1 q.1
    omega
  rw [Automaton.get_type, h1, h2]
  rfl

theorem addStatesLoop_spec (A : Automaton) :
    ∀ (L : List (Finset String × String)) (d0 : Automaton) (fs0 : Finset String)
      (d1 : Automaton) (fs1 : Finset String),
      addStatesLoop A L d0 fs0 = (none, d1, fs1) →
      d1.name = d0.name ∧ d1.start_states = d0.start_states ∧
        d1.final_states = d0.final_states ∧ d1.transitions = d0.transitions ∧
        d1.alphabet = d0.alphabet ∧
        d1.states = d0.states ∪ (L.map Prod.snd).toFinset ∧
        (L.map Prod.snd).Nodup ∧ (∀ p ∈ L, p.2 ∉ d0.states) ∧
        (∀ m, m ∈ fs1 ↔ m ∈ fs0 ∨ ∃ p ∈ L, p.2 = m ∧ (p.1 ∩ A.final_states).Nonempty) := by
  intro L
  induction L with
  | nil =>
    intro d0 fs0 d1 fs1 h
    injection h with h1 h2
    injection h2 with h2 h3
    subst h2
    subst h3
    exact ⟨rfl, rfl, rfl, rfl, rfl, by simp, List.nodup_nil, by simp, fun m => by simp⟩
  | cons p rest ih =>
    obtain ⟨S, m⟩ := p
    intro d0 fs0 d1 fs1 h
    by_cases hm : m ∈ d0.states
    · rw [addStatesLoop, Automaton.add_state, if_pos hm] at h
      injection h with h1 _
      exact absurd h1.symm (by simp)
    · rw [addStatesLoop, Automaton.add_state, if_neg hm] at h
      obtain ⟨h1, h2, h3, h4, h5, h6, h7, h8, h9⟩ := ih _ _ d1 fs1 h
      refine ⟨h1, h2, h3, h4, h5, ?_, ?_, ?_, ?_⟩
      · rw [h6]
        show insert m d0.states ∪ (rest.map Prod.snd).toFinset = _
        rw [Finset.insert_union, List.map_cons, List.toFinset_cons, Finset.union_insert]
      · rw [List.map_cons, List.nodup_cons]
        refine ⟨?_, h7⟩
        intro hmem
        rcases List.mem_map.mp hmem with ⟨q, hq, hq2⟩
        have := h8 q hq
        rw [hq2] at this
        exact this (Finset.mem_insert_self m _)
      · intro q hq
        rcases List.mem_cons.mp hq with rfl | hq
        · exact hm
        · intro hc
          exact h8 q hq (Finset.mem_insert_of_mem hc)
      · intro m'
        rw [h9 m']
        by_cases hfin : (S ∩ A.final_states).Nonempty
        · rw [if_pos hfin]
          simp only [Finset.mem_insert, List.mem_cons]
          constructor
          · rintro ((rfl | hm') | ⟨q, hq, hq2, hq3⟩)
            · exact Or.inr ⟨(S, m'), Or.inl rfl, rfl, hfin⟩
            · exact Or.inl hm'
            · exact Or.inr ⟨q, Or.inr hq, hq2, hq3⟩
          · rintro (hm' | ⟨q, (rfl | hq), hq2, hq3⟩)
            · exact Or.inl (Or.inr hm')
            · exact Or.inl (Or.inl hq2.symm)
            · exact Or.inr ⟨q, hq, hq2, hq3⟩
        · rw [if_neg hfin]
          simp only [List.mem_cons]
          constructor
          · rintro (hm' | ⟨q, hq, hq2, hq3⟩)
            · exact Or.inl hm'
            · exact Or.inr ⟨q, Or.inr hq, hq2, hq3⟩
          · rintro (hm' | ⟨q, (rfl | hq), hq2, hq3⟩)
            · exact Or.inl hm'
            · exact absurd hq3 hfin
            · exact Or.inr ⟨q, hq, hq2, hq3⟩

theorem addTransitionsLoop_spec :
    ∀ (ts : List (String × String × String)) (d0 d1 : Automaton),
      addTransitionsLoop ts d0 = (none, d1) →
      d1.name = d0.name ∧ d1.states = d0.states ∧ d1.start_states = d0.start_states ∧
        d1.final_states = d0.final_states ∧ d1.alphabet = d0.alphabet ∧
        (StructWF d0 → StructWF d1) ∧
        ∀ q b, destSet d1 q b = destSet d0 q b ∪
          ((ts.filter (fun tr => decide (tr.1 = q ∧ tr.2.2 = b))).map (fun tr => tr.2.1)).toFinset := by
  intro ts
  induction ts with
  | nil =>
    intro d0 d1 h
    injection h with h1 h2
    subst h2
    exact ⟨rfl, rfl, rfl, rfl, rfl, id, fun q b => by simp⟩
  | cons tr rest ih =>
    obtain ⟨f, t, a⟩ := tr
    intro d0 d1 h
    rcases hadd : d0.add_transition f t a with ⟨e1, dmid⟩
    rw [addTransitionsLoop, hadd] at h
    cases e1 with
    | some e =>
      injection h with h1 _
      exact absurd h1.symm (by simp)
    | none =>
      obtain ⟨h1, h2, h3, h4, h5, h6, h7⟩ := ih dmid d1 h
      obtain ⟨hf, ht, hmid⟩ := add_transition_ok hadd
      have hmidfields : dmid.name = d0.name ∧ dmid.states = d0.states ∧
          dmid.start_states = d0.start_states ∧ dmid.final_states = d0.final_states ∧
          dmid.alphabet = d0.alphabet := by
        rw [hmid]
        exact ⟨rfl, rfl, rfl, rfl, rfl⟩
      refine ⟨h1.trans hmidfields.1, h2.trans hmidfields.2.1, h3.trans hmidfields.2.2.1,
        h4.trans hmidfields.2.2.2.1, h5.trans hmidfields.2.2.2.2,
        fun hWF => h6 (add_transition_structWF hadd hWF), ?_⟩
      intro q b
      rw [h7 q b, add_transition_destSet hadd q b]
      by_cases hqb : q = f ∧ b = a
      · rw [if_pos hqb]
        have hfilter : List.filter (fun tr => decide (tr.1 = q ∧ tr.2.2 = b)) ((f, t, a) :: rest) =
            (f, t, a) :: List.filter (fun tr => decide (tr.1 = q ∧ tr.2.2 = b)) rest := by
          rw [List.filter_cons]
          rw [if_pos (by simp [hqb.1.symm, hqb.2.symm])]
        rw [hfilter, List.map_cons, List.toFinset_cons]
        rw [Finset.insert_union, Finset.union_insert]
      · rw [if_neg hqb]
        have hfilter : List.filter (fun tr => decide (tr.1 = q ∧ tr.2.2 = b)) ((f, t, a) :: rest) =
            List.filter (fun tr => decide (tr.1 = q ∧ tr.2.2 = b)) rest := by
          rw [List.filter_cons]
          rw [if_neg (by simpa using fun h1 h2 => hqb ⟨h1.symm, h2.symm⟩)]
        rw [hfilter]

theorem checkStatesRegistered_ok (A : Automaton) :
    ∀ (l : List String), (∀ s ∈ l, s ∈ A.states) → checkStatesRegistered A l = none := by
  intro l
  induction l with
  | nil => intro _; rfl
  | cons s rest ih =>
    intro h
    rw [checkStatesRegistered, if_pos (h s (List.mem_cons_self _ _))]
    exact ih (fun x hx => h x (List.mem_cons_of_mem _ hx))

theorem set_start_states_single {A' d2 : Automaton} {s : String}
    (h : A'.set_start_states [s] = (none, d2)) :
    s ∈ A'.states ∧ d2 = { A' with start_states := insert s A'.start_states } := by
  by_cases hs : s ∈ A'.states
  · simp only [Automaton.set_start_states, if_pos hs] at h
    injection h with _ h2
    exact ⟨hs, h2.symm⟩
  · simp only [Automaton.set_start_states, if_neg hs] at h
    injection h with h1 _
    exact absurd h1.symm (by simp)

theorem set_final_states_ok {A' d3 : Automaton} {l : List String}
    (h : A'.set_final_states l = (none, d3)) :
    d3 = { A' with final_states := l.toFinset } := by
  rcases hc : checkStatesRegistered A' l with _ | e
  · rw [Automaton.set_final_states, hc] at h
    injection h with _ h2
    exact h2.symm
  · rw [Automaton.set_final_states, hc] at h
    injection h with h1 _
    exact absurd h1.symm (by simp)

theorem destSet_congr {A B : Automaton} (h : A.transitions = B.transitions) (q b : String) :
    destSet A q b = destSet B q b := by
  rw [destSet_getD, destSet_getD, h]

theorem destSet_transitions_nil {A : Automaton} (h : A.transitions = []) (q b : String) :
    destSet A q b = ∅ := by
  rw [destSet_getD, h]
  simp [alookup]

theorem buildDfa_spec (A : Automaton) (st : ConvState) (dfa : Automaton)
    (h : buildDfa A st = (none, dfa)) :
    (st.dfa_states.map Prod.snd).Nodup ∧
      dfa.states = (st.dfa_states.map Prod.snd).toFinset ∧
      dfa.start_states = {"A"} ∧
      (∀ m, m ∈ dfa.final_states ↔
        ∃ p ∈ st.dfa_states, p.2 = m ∧ (p.1 ∩ A.final_states).Nonempty) ∧
      StructWF dfa ∧
      ∀ q b, destSet dfa q b =
        (((transTriples st.dfa_states st.dfa_transitions).filter
          (fun tr => decide (tr.1 = q ∧ tr.2.2 = b))).map (fun tr => tr.2.1)).toFinset := by
  rw [buildDfa] at h
  split at h
  next e d snd heq => injection h with hx _; exact absurd hx.symm (by simp)
  next d fs h1 =>
    split at h
    next e d' heq => injection h with hx _; exact absurd hx.symm (by simp)
    next d' h2 =>
      split at h
      next e d2 heq => injection h with hx _; exact absurd hx.symm (by simp)
      next d2 h3 =>
        split at h
        next e d3 heq => injection h with hx _; exact absurd hx.symm (by simp)
        next d3 h4 =>
          injection h with _ hdfa
          subst hdfa
          obtain ⟨s1, s2, s3, s4, s5, s6, s7, s8, s9⟩ := addStatesLoop_spec A _ _ _ d fs h1
          obtain ⟨t1, t2, t3, t4, t5, t6, t7⟩ := addTransitionsLoop_spec _ d d' h2
          obtain ⟨u1, u2⟩ := set_start_states_single h3
          have v1 := set_final_states_ok h4
          subst u2
          subst v1
          refine ⟨s7, ?_, ?_, ?_, ?_, ?_⟩
          · show d'.states = _
            rw [t2, s6]
            show (Automaton.init "DFA").states ∪ _ = _
            rw [show (Automaton.init "DFA").states = ∅ from rfl, Finset.empty_union]
          · show insert "A" d'.start_states = _
            rw [t3, s2]
            rfl
          · intro m
            show m ∈ (sortStr fs).toFinset ↔ _
            rw [toFinset_sortStr]
            rw [s9 m]
            simp
          · show StructWF _
            have hwfd : StructWF d := by
              constructor
              · rw [s4]
                exact List.nodup_nil
              · rw [s4]
                intro p hp
                cases hp
            have hwf' : StructWF d' := t6 hwfd
            show (keysOf _).Nodup ∧ _
            exact hwf'
          · intro q b
            show destSet d' q b = _
            rw [t7 q b, destSet_transitions_nil s4 q b, Finset.empty_union]

theorem filter_map_comm {α β : Type} (f : α → β) (p : β → Bool) :
    ∀ l : List α, (l.map f).filter p = (l.filter (fun a => p (f a))).map f := by
  intro l
  induction l with
  | nil => rfl
  | cons x xs ih =>
    simp only [List.map_cons, List.filter_cons]
    by_cases hx : p (f x) = true
    · rw [if_pos hx, if_pos hx, List.map_cons, ih]
    · rw [if_neg hx, if_neg hx, ih]

theorem filter_key_eq {β : Type} (b : String) :
    ∀ d : List (String × β), (keysOf d).Nodup →
      d.filter (fun q => decide (q.1 = b)) =
        (match alookup d b with | some v => [(b, v)] | none => ([] : List (String × β))) := by
  intro d
  induction d with
  | nil => intro _; rfl
  | cons p rest ih =>
    intro hnd
    simp only [keysOf, List.map_cons, List.nodup_cons] at hnd
    by_cases hp : p.1 = b
    · have hbk : b ∉ keysOf rest := fun hmem => hnd.1 (hp ▸ hmem)
      have hfil : rest.filter (fun q => decide (q.1 = b)) = [] := by
        rw [List.filter_eq_nil_iff]
        intro q hq
        simp only [decide_eq_true_eq]
        intro hqb
        exact hbk (hqb ▸ List.mem_map_of_mem Prod.fst hq)
      rw [List.filter_cons, if_pos (by simp [hp]), hfil, alookup, if_pos hp]
      show [p] = [(b, p.2)]
      rcases p with ⟨p1, p2⟩
      simp only at hp
      rw [hp]
    · rw [List.filter_cons, if_neg (by simp [hp]), alookup, if_neg hp]
      exact ih hnd.2

theorem markOfL_mem {L : List (Finset String × String)} {p : Finset String × String}
    (hnd : (keysOf L).Nodup) (hp : p ∈ L) : markOfL L p.1 = p.2 := by
  rw [markOfL, alookup_nodup_of_mem hnd hp]
  rfl

theorem markOfL_inj {L : List (Finset String × String)}
    (hndk : (keysOf L).Nodup) (hndm : (L.map Prod.snd).Nodup)
    {S S' : Finset String} (hS : S ∈ keysOf L) (hS' : S' ∈ keysOf L)
    (he : markOfL L S = markOfL L S') : S = S' := by
  rcases List.mem_map.mp hS with ⟨p, hp, hp1⟩
  rcases List.mem_map.mp hS' with ⟨p', hp', hp1'⟩
  subst hp1
  subst hp1'
  rw [markOfL_mem hndk hp, markOfL_mem hndk hp'] at he
  exact congrArg Prod.fst (List.inj_on_of_nodup_map hndm hp hp' he)

theorem transTriples_filter_char
    (L : List (Finset String × String)) (T : List (Finset String × List (String × Finset String)))
    (S : Finset String) (d : List (String × Finset String)) (b : String)
    (hndk : (keysOf L).Nodup) (hndm : (L.map Prod.snd).Nodup) (hSL : S ∈ keysOf L)
    (hTd : alookup T S = some d) (hndd : (keysOf d).Nodup) :
    ∀ M : List (Finset String × String), (∀ p ∈ M, p ∈ L) → (keysOf M).Nodup →
      (((M.map (fun p => ((alookup T p.1).getD []).map
          (fun q => (p.2, markOfL L q.2, q.1)))).flatten.filter
        (fun tr => decide (tr.1 = markOfL L S ∧ tr.2.2 = b))).map (fun tr => tr.2.1)) =
      (if S ∈ keysOf M then
        (match alookup d b with | some D => [markOfL L D] | none => ([] : List String))
       else []) := by
  intro M
  induction M with
  | nil =>
    intro _ _
    rw [if_neg (by simp [keysOf])]
    rfl
  | cons p M' ih =>
    intro hM hndM
    simp only [keysOf, List.map_cons, List.nodup_cons] at hndM
    have hpL : p ∈ L := hM p (List.mem_cons_self _ _)
    simp only [List.map_cons, List.flatten_cons, List.filter_append, List.map_append]
    rw [ih (fun q hq => hM q (List.mem_cons_of_mem _ hq)) hndM.2]
    by_cases hpS : p.1 = S
    · have hpmark : p.2 = markOfL L S := by
        rw [← hpS, markOfL_mem hndk hpL]
      have hSM' : S ∉ keysOf M' := fun hmem => hndM.1 (hpS ▸ hmem)
      rw [if_neg hSM',
        if_pos (show S ∈ keysOf (p :: M') from List.mem_cons.mpr (Or.inl hpS.symm))]
      rw [List.append_nil, hpS, hTd]
      simp only [Option.getD_some]
      rw [filter_map_comm]
      have hcong : d.filter (fun q => decide ((p.2, markOfL L q.2, q.1).1 = markOfL L S ∧
          (p.2, markOfL L q.2, q.1).2.2 = b)) = d.filter (fun q => decide (q.1 = b)) := by
        apply List.filter_congr
        intro q _
        simp [hpmark]
      rw [hcong, filter_key_eq b d hndd]
      rcases alookup d b with _ | D
      · rfl
      · rfl
    · have hpm : p.2 ≠ markOfL L S := by
        intro he
        have hkey : p.1 ∈ keysOf L := List.mem_map_of_mem Prod.fst hpL
        exact hpS (markOfL_inj hndk hndm hkey hSL (by rw [markOfL_mem hndk hpL]; exact he))
      have hfil : (((alookup T p.1).getD []).map
          (fun q => (p.2, markOfL L q.2, q.1))).filter
            (fun tr => decide (tr.1 = markOfL L S ∧ tr.2.2 = b)) = [] := by
        rw [List.filter_eq_nil_iff]
        intro tr htr
        rcases List.mem_map.mp htr with ⟨q, _, hq2⟩
        subst hq2
        simp only [decide_eq_true_eq, not_and]
        intro hc
        exact absurd hc hpm
      rw [hfil]
      simp only [List.map_nil, List.nil_append]
      by_cases hmem : S ∈ keysOf M'
      · rw [if_pos hmem, if_pos (show S ∈ keysOf (p :: M') from List.mem_cons_of_mem _ hmem)]
      · rw [if_neg hmem, if_neg (show S ∉ keysOf (p :: M') from
          fun hc => (List.mem_cons.mp hc).elim (fun h1 => hpS h1.symm) hmem)]

theorem nfa_to_dfa_facts (A : Automaton) (fuel : Nat) (dfa : Automaton)
    (hrun : nfa_to_dfa fuel A = some (none, dfa)) :
    ∃ (L : List (Finset String × String)) (T : List (Finset String × List (String × Finset String)))
      (S0 : Finset String) (Lt : List (Finset String × String)),
      L = (S0, "A") :: Lt ∧
      (↑S0 : Set String) = closureSet A ↑A.start_states ∧
      (keysOf L).Nodup ∧ (L.map Prod.snd).Nodup ∧
      (∀ S ∈ keysOf L, ∃ d, alookup T S = some d ∧
        EntrySpec A (keysOf L) S d (sortStr A.alphabet)) ∧
      dfa.states = (L.map Prod.snd).toFinset ∧
      dfa.start_states = {"A"} ∧
      (∀ m, m ∈ dfa.final_states ↔ ∃ p ∈ L, p.2 = m ∧ (p.1 ∩ A.final_states).Nonempty) ∧
      StructWF dfa ∧
      (∀ S ∈ keysOf L, ∀ b, ∀ d, alookup T S = some d →
        destSet dfa (markOfL L S) b =
          (match alookup d b with | some D => {markOfL L D} | none => (∅ : Finset String))) ∧
      (∀ q, q ∉ L.map Prod.snd → ∀ b, destSet dfa q b = ∅) := by
  rw [nfa_to_dfa] at hrun
  split at hrun
  next heq1 => exact Option.noConfusion hrun
  next S0 heq1 =>
    split at hrun
    next heq2 => exact Option.noConfusion hrun
    next stF heq2 =>
      injection hrun with hrun
      have hInv0 : LoopInv A ⟨[], [(S0, markString 'A')], [S0], 'A', ∅⟩ := by
        refine ⟨by simp [keysOf], ?_, ?_⟩
        · show (keysOf ([] : List (Finset String × List (String × Finset String))) ++ [S0]).Perm
            (keysOf [(S0, markString 'A')])
          simp [keysOf]
        · intro p hp
          cases hp
      obtain ⟨hqF, ⟨hndL, hpermF, hentF⟩, ⟨ext, hext⟩, _⟩ :=
        convLoop_spec A fuel _ stF heq2 hInv0
      obtain ⟨hmnd, hstates, hstart, hfin, hwf, hdest⟩ := buildDfa_spec A stF dfa hrun
      have hndT : (keysOf stF.dfa_transitions).Nodup := by
        have hp2 : (keysOf stF.dfa_transitions ++ stF.queue).Nodup :=
          hpermF.nodup_iff.mpr hndL
        rw [hqF, List.append_nil] at hp2
        exact hp2
      have hpermT : (keysOf stF.dfa_transitions).Perm (keysOf stF.dfa_states) := by
        have := hpermF
        rw [hqF, List.append_nil] at this
        exact this
      have hlook : ∀ S ∈ keysOf stF.dfa_states, ∃ d, alookup stF.dfa_transitions S = some d ∧
          EntrySpec A (keysOf stF.dfa_states) S d (sortStr A.alphabet) := by
        intro S hS
        have hST : S ∈ keysOf stF.dfa_transitions := hpermT.symm.subset hS
        rcases List.mem_map.mp hST with ⟨p, hp, hp1⟩
        subst hp1
        exact ⟨p.2, alookup_nodup_of_mem hndT hp, hentF p hp⟩
      have hmark : markString 'A' = "A" := by decide
      refine ⟨stF.dfa_states, stF.dfa_transitions, S0, ext, ?_, ?_, hndL, hmnd, hlook,
        hstates, hstart, ?_, hwf, ?_, ?_⟩
      · rw [hext, hmark]
        rfl
      · exact epsilon_set_closure_sound A fuel _ S0 heq1
      · intro m
        rw [hfin m]
      · intro S hS b d hTd
        rw [hdest (markOfL stF.dfa_states S) b]
        have hndd : (keysOf d).Nodup := by
          rcases hlook S hS with ⟨d', hd', hES⟩
          rw [hTd] at hd'
          injection hd' with hd'
          subst hd'
          exact hES.1
        rw [transTriples,
          transTriples_filter_char stF.dfa_states stF.dfa_transitions S d b hndL hmnd hS hTd hndd
            stF.dfa_states (fun p hp => hp) hndL,
          if_pos hS]
        rcases alookup d b with _ | D
        · rfl
        · rfl
      · intro q hq b
        rw [hdest q b]
        have hfil : (transTriples stF.dfa_states stF.dfa_transitions).filter
            (fun tr => decide (tr.1 = q ∧ tr.2.2 = b)) = [] := by
          rw [List.filter_eq_nil_iff]
          intro tr htr
          rw [transTriples] at htr
          rcases List.mem_flatten.mp htr with ⟨inner, hinner, htr2⟩
          rcases List.mem_map.mp hinner with ⟨p, hp, hp2⟩
          subst hp2
          rcases List.mem_map.mp htr2 with ⟨e, _, he2⟩
          subst he2
          simp only [decide_eq_true_eq, not_and]
          intro hc
          exact absurd (hc ▸ List.mem_map_of_mem Prod.snd hp) hq
        rw [hfil]
        rfl

/-- Claim C1: for every input automaton (of any of the three types) whose
alphabet respects the data-model invariant of excluding the ε marker, and for
every run of nfa_to_dfa that returns an automaton, the source automaton
accepts a string over the source alphabet exactly when the returned DFA
accepts it (acceptance by explicit simulation, as the spec prescribes). -/
theorem nfa_to_dfa_language_equiv (A : Automaton) (fuel : Nat) (dfa : Automaton)
    (hepsA : eps ∉ A.alphabet) (hrun : nfa_to_dfa fuel A = some (none, dfa))
    (w : List String) (hw : ∀ a ∈ w, a ∈ A.alphabet) :
    accepts A w ↔ accepts dfa w := by
  obtain ⟨L, T, S0, Lt, hL, hS0, hndk, hndm, hlook, hstates, hstart, hfin, hwf, hdest, hdest0⟩ :=
    nfa_to_dfa_facts A fuel dfa hrun
  have hnoeps : ∀ u, destSet dfa u eps = ∅ := by
    intro u
    by_cases hu : u ∈ L.map Prod.snd
    · rcases List.mem_map.mp hu with ⟨p, hp, hp2⟩
      subst hp2
      have hkey : p.1 ∈ keysOf L := List.mem_map_of_mem Prod.fst hp
      rcases hlook p.1 hkey with ⟨d, hTd, hES⟩
      rw [← markOfL_mem hndk hp, hdest p.1 hkey eps d hTd]
      have hnone : alookup d eps = none := by
        rw [alookup_eq_none]
        intro hmem
        rcases List.mem_map.mp hmem with ⟨q, hq, hq2⟩
        have hqd := hES.2.1 q hq
        rw [hq2] at hqd
        exact hepsA (mem_sortStr.mp hqd)
      rw [hnone]
    · exact hdest0 u hu eps
  have hclos : ∀ X : Set String, closureSet dfa X = X := closureSet_of_no_eps hnoeps
  have main : ∀ (w' : List String), (∀ a ∈ w', a ∈ A.alphabet) → ∀ S, S ∈ keysOf L →
      (∃ S', S' ∈ keysOf L ∧ (↑S' : Set String) = List.foldl (stepSet A) ↑S w' ∧
        List.foldl (stepSet dfa) {markOfL L S} w' = {markOfL L S'}) ∨
      (List.foldl (stepSet A) (↑S) w' = ∅ ∧
        List.foldl (stepSet dfa) {markOfL L S} w' = ∅) := by
    intro w'
    induction w' with
    | nil =>
      intro _ S hS
      exact Or.inl ⟨S, hS, rfl, rfl⟩
    | cons b w'' ih =>
      intro hbw S hS
      have hb : b ∈ A.alphabet := hbw b (List.mem_cons_self _ _)
      rcases hlook S hS with ⟨d, hTd, hES⟩
      have hspec := hES.2.2 b (mem_sortStr.mpr hb)
      by_cases hempty : stepSet A ↑S b = ∅
      · have hnone := hspec.1 hempty
        have hdS : destSet dfa (markOfL L S) b = ∅ := by
          rw [hdest S hS b d hTd, hnone]
        have hdfa_step : stepSet dfa {markOfL L S} b = ∅ := by
          rw [stepSet, movesSet_singleton, hdS, hclos]
          exact Finset.coe_empty
        right
        simp only [List.foldl_cons]
        rw [hempty, hdfa_step, foldl_stepSet_empty, foldl_stepSet_empty]
        exact ⟨rfl, rfl⟩
      · rcases hspec.2 hempty with ⟨D, hDd, hDcoe, hDk⟩
        have hdS : destSet dfa (markOfL L S) b = {markOfL L D} := by
          rw [hdest S hS b d hTd, hDd]
        have hdfa_step : stepSet dfa {markOfL L S} b = {markOfL L D} := by
          rw [stepSet, movesSet_singleton, hdS, hclos]
          exact Finset.coe_singleton _
        simp only [List.foldl_cons]
        rw [hdfa_step, ← hDcoe]
        exact ih (fun x hx => hbw x (List.mem_cons_of_mem _ hx)) D hDk
  have hS0k : S0 ∈ keysOf L := by
    rw [hL]
    exact List.mem_cons_self _ _
  have hmark0 : markOfL L S0 = "A" := by
    rw [hL]
    simp [markOfL, alookup]
  have hreachA : reachSet A w = List.foldl (stepSet A) ↑S0 w := by
    rw [reachSet, ← hS0]
  have hreachD : reachSet dfa w = List.foldl (stepSet dfa) {markOfL L S0} w := by
    rw [reachSet, hstart, hclos, hmark0, Finset.coe_singleton]
  rcases main w hw S0 hS0k with ⟨S', hS'k, hS'coe, hS'dfa⟩ | ⟨hAe, hDe⟩
  · rw [accepts, accepts, hreachA, hreachD, ← hS'coe, hS'dfa]
    constructor
    · rintro ⟨q, hq1, hq2⟩
      refine ⟨markOfL L S', Set.mem_singleton _, ?_⟩
      rw [hfin]
      rcases List.mem_map.mp hS'k with ⟨p, hp, hp1⟩
      refine ⟨p, hp, by rw [← hp1, markOfL_mem hndk hp], ?_⟩
      rw [hp1]
      exact ⟨q, Finset.mem_inter.mpr ⟨Finset.mem_coe.mp hq1, hq2⟩⟩
    · rintro ⟨q, hq1, hq2⟩
      have hqm : q = markOfL L S' := Set.mem_singleton_iff.mp hq1
      rw [hfin] at hq2
      rcases hq2 with ⟨p, hp, hpm, hpnon⟩
      have hp1k : p.1 ∈ keysOf L := List.mem_map_of_mem Prod.fst hp
      have hpS' : p.1 = S' := by
        apply markOfL_inj hndk hndm hp1k hS'k
        rw [markOfL_mem hndk hp, hpm, hqm]
      rw [hpS'] at hpnon
      rcases hpnon with ⟨x, hx⟩
      exact ⟨x, Finset.mem_coe.mpr (Finset.mem_inter.mp hx).1, (Finset.mem_inter.mp hx).2⟩
  · rw [accepts, accepts, hreachA, hreachD, hAe, hDe]
    simp

theorem nfa_to_dfa_card_facts (A : Automaton) (fuel : Nat) (dfa : Automaton)
    (hrun : nfa_to_dfa fuel A = some (none, dfa)) :
    (∀ q b, (destSet dfa q b).card ≤ 1) ∧
      (eps ∉ A.alphabet → ∀ u, destSet dfa u eps = ∅) ∧ StructWF dfa := by
  obtain ⟨L, T, S0, Lt, hL, hS0, hndk, hndm, hlook, hstates, hstart, hfin, hwf, hdest, hdest0⟩ :=
    nfa_to_dfa_facts A fuel dfa hrun
  refine ⟨?_, ?_, hwf⟩
  · intro q b
    by_cases hq : q ∈ L.map Prod.snd
    · rcases List.mem_map.mp hq with ⟨p, hp, hp2⟩
      subst hp2
      have hkey : p.1 ∈ keysOf L := List.mem_map_of_mem Prod.fst hp
      rcases hlook p.1 hkey with ⟨d, hTd, _⟩
      rw [← markOfL_mem hndk hp, hdest p.1 hkey b d hTd]
      rcases alookup d b with _ | D
      · simp
      · simp
    · rw [hdest0 q hq b]
      simp
  · intro hepsA u
    by_cases hu : u ∈ L.map Prod.snd
    · rcases List.mem_map.mp hu with ⟨p, hp, hp2⟩
      subst hp2
      have hkey : p.1 ∈ keysOf L := List.mem_map_of_mem Prod.fst hp
      rcases hlook p.1 hkey with ⟨d, hTd, hES⟩
      rw [← markOfL_mem hndk hp, hdest p.1 hkey eps d hTd]
      have hnone : alookup d eps = none := by
        rw [alookup_eq_none]
        intro hmem
        rcases List.mem_map.mp hmem with ⟨q, hq, hq2⟩
        have hqd := hES.2.1 q hq
        rw [hq2] at hqd
        exact hepsA (mem_sortStr.mp hqd)
      rw [hnone]
    · exact hdest0 u hu eps

/-- Witness for claim C1 at a concrete input. -/
theorem nfa_to_dfa_language_equiv_witness :
    (eps ∉ oneStep.alphabet ∧ nfa_to_dfa 10 oneStep = some (none, oneStepDfa) ∧
      ∀ a ∈ ["a"], a ∈ oneStep.alphabet) ∧
      (accepts oneStep ["a"] ↔ accepts oneStepDfa ["a"]) :=
  ⟨⟨by decide, by decide, by decide⟩,
    nfa_to_dfa_language_equiv oneStep 10 oneStepDfa (by decide) (by decide) ["a"] (by decide)⟩

/-- Claim C3: for every input automaton whose alphabet excludes the ε marker,
any automaton returned by nfa_to_dfa is classified DFA by get_type: it has no
ε-labeled transition, and every (state, symbol) pair has at most one
destination. -/
theorem nfa_to_dfa_output_is_DFA (A : Automaton) (fuel : Nat) (dfa : Automaton)
    (hepsA : eps ∉ A.alphabet) (hrun : nfa_to_dfa fuel A = some (none, dfa)) :
    dfa.get_type = AutomatonType.DFA ∧ (∀ q, destSet dfa q eps = ∅) ∧
      ∀ q b, (destSet dfa q b).card ≤ 1 := by
  obtain ⟨hcard, hne, hwf⟩ := nfa_to_dfa_card_facts A fuel dfa hrun
  exact ⟨get_type_DFA hwf (hne hepsA) hcard, hne hepsA, hcard⟩

/-- Witness for claim C3 at a concrete input. -/
theorem nfa_to_dfa_output_is_DFA_witness :
    (eps ∉ oneStep.alphabet ∧ nfa_to_dfa 10 oneStep = some (none, oneStepDfa)) ∧
      (oneStepDfa.get_type = AutomatonType.DFA ∧ (∀ q, destSet oneStepDfa q eps = ∅) ∧
        ∀ q b, (destSet oneStepDfa q b).card ≤ 1) :=
  ⟨⟨by decide, by decide⟩, nfa_to_dfa_output_is_DFA oneStep 10 oneStepDfa (by decide) (by decide)⟩

/-- Claim C4, amended: in any automaton returned by nfa_to_dfa the transition
function is deterministic per symbol — every (state, symbol) pair has at most
one destination — but not necessarily total over the output alphabet. -/
theorem nfa_to_dfa_deterministic (A : Automaton) (fuel : Nat) (dfa : Automaton)
    (hrun : nfa_to_dfa fuel A = some (none, dfa)) :
    ∀ q b, (destSet dfa q b).card ≤ 1 :=
  (nfa_to_dfa_card_facts A fuel dfa hrun).1

/-- Witness for the amended claim C4 at a concrete input. -/
theorem nfa_to_dfa_deterministic_witness :
    nfa_to_dfa 10 oneStep = some (none, oneStepDfa) ∧
      ∀ q b, (destSet oneStepDfa q b).card ≤ 1 :=
  ⟨by decide, nfa_to_dfa_deterministic oneStep 10 oneStepDfa (by decide)⟩
